import Mathlib

/-!
# A shallow embedding of `nltk/data.py`

This file embeds the resource-resolution subsystem of `nltk/data.py`
(URL normalization, the search-path resolver `find`, the path-pointer
variants, the open-on-demand zip handle, and the caching loader `load`)
and proves properties about it.

Modelling conventions:
* Python strings are `List Char`; byte strings are `List Nat`.
* POSIX platform semantics are embedded throughout
  (`sys.platform.startswith('win')` is `False`, `os.path.sep = '/'`,
  `os.curdir = '.'`, `os.path` is `posixpath`).
* The working directory (`os.getcwd()`) is passed explicitly as `cwd`.
* Python exceptions are modelled by `Except` with an explicit error type.
-/

namespace NltkData

/-- Python `str.split(sep)` on character lists: splits at every separator
occurrence, keeping empty pieces; the result is always nonempty
(`''.split(sep) == ['']`). -/
def pySplit (sep : Char) : List Char → List (List Char)
  | [] => [[]]
  | c :: cs =>
    if c = sep then [] :: pySplit sep cs
    else
      match pySplit sep cs with
      | [] => [[c]]
      | p :: ps => (c :: p) :: ps

/-- Python `sep.join(pieces)` on character lists. -/
def pyJoin (sep : Char) : List (List Char) → List Char
  | [] => []
  | [p] => p
  | p :: ps => p ++ sep :: pyJoin sep ps

/-- Python `str.startswith(pre)`: `pyStartsWith pre s` is true when `pre`
is an initial segment of `s`. -/
def pyStartsWith : List Char → List Char → Bool
  | [], _ => true
  | _ :: _, [] => false
  | p :: ps, c :: cs => p = c && pyStartsWith ps cs

/-- Python `str.endswith(suf)`. -/
def pyEndsWith (suf s : List Char) : Bool :=
  pyStartsWith suf.reverse s.reverse

/-- Python `str.lstrip('/')`. -/
def lstripSlash (s : List Char) : List Char := s.dropWhile (· = '/')

/-- `re.sub(r'^/+', '/', s)`: collapse a leading run of slashes to one. -/
def collapseSlashes (s : List Char) : List Char :=
  if s.head? = some '/' then '/' :: s.dropWhile (· = '/') else s

/-- `re.sub(r'^/{0,2}', '', s)`: greedily drop up to two leading slashes. -/
def dropTwoSlashes : List Char → List Char
  | '/' :: '/' :: rest => rest
  | '/' :: rest => rest
  | s => s

/-- `posixpath.isabs`. -/
def isAbs (p : List Char) : Bool := pyStartsWith ['/'] p

/-- Two-argument `posixpath.join`. -/
def pathJoin (a b : List Char) : List Char :=
  if isAbs b then b
  else if a = [] ∨ a.getLast? = some '/' then a ++ b
  else a ++ '/' :: b

/-- The component loop of `posixpath.normpath`: drop empty and `'.'`
components; a `'..'` pops the previous component unless there is none
(and the path is relative) or the previous component is itself `'..'`;
at the root of an absolute path a `'..'` is dropped.  The accumulator is
kept reversed (Python appends to and pops from the end of `new_comps`). -/
def normParts (absFlag : Bool) (acc : List (List Char)) : List (List Char) → List (List Char)
  | [] => acc.reverse
  | c :: cs =>
    if c = [] ∨ c = ['.'] then normParts absFlag acc cs
    else if c ≠ ['.', '.'] then normParts absFlag (c :: acc) cs
    else
      match acc with
      | [] =>
        if absFlag then normParts absFlag [] cs
        else normParts absFlag [['.', '.']] cs
      | d :: ds =>
        if d = ['.', '.'] then normParts absFlag (c :: acc) cs
        else normParts absFlag ds cs

/-- The leading-slash count `posixpath.normpath` preserves: two slashes
are kept as two (a POSIX special case), any other number collapses to
one, none stays none. -/
def slashCount (p : List Char) : Nat :=
  if pyStartsWith ['/', '/'] p && !pyStartsWith ['/', '/', '/'] p then 2
  else if pyStartsWith ['/'] p then 1 else 0

/-- Reassembly step of `posixpath.normpath`: the kept leading slashes,
the joined components, or `'.'` when both are empty. -/
def renderPath (slashes : Nat) (comps : List (List Char)) : List Char :=
  let out := List.replicate slashes '/' ++ pyJoin '/' comps
  if out = [] then ['.'] else out

/-- `posixpath.normpath`. -/
def normpath (p : List Char) : List Char :=
  if p = [] then ['.']
  else
    renderPath (slashCount p)
      (normParts ((slashCount p) != 0) [] (pySplit '/' p))

/-- `posixpath.abspath`, with the working directory passed explicitly. -/
def abspath (cwd p : List Char) : List Char :=
  normpath (if isAbs p then p else pathJoin cwd p)

/-- A clean path component: nonempty, not `'.'`, and slash-free. -/
def GoodComp (c : List Char) : Prop := c ≠ [] ∧ c ≠ ['.'] ∧ '/' ∉ c

/-- Shape of the (reversed) accumulator of `normParts`: clean non-`'..'`
components pushed on top of a run of `'..'`s, the run empty for
absolute paths. -/
def GoodStack (absFlag : Bool) (acc : List (List Char)) : Prop :=
  ∃ front k, acc = front ++ List.replicate k ['.', '.']
    ∧ (∀ c ∈ front, GoodComp c ∧ c ≠ ['.', '.'])
    ∧ (absFlag = true → k = 0)

/-- Shape of a finished component list produced by `normParts`: a
leading run of `'..'`s (empty for absolute paths) followed by clean
non-`'..'` components. -/
def GoodList (absFlag : Bool) (l : List (List Char)) : Prop :=
  ∃ k rest, l = List.replicate k ['.', '.'] ++ rest
    ∧ (∀ c ∈ rest, GoodComp c ∧ c ≠ ['.', '.'])
    ∧ (absFlag = true → k = 0)

/-- A well-formed working directory, as `os.getcwd()` returns: absolute
with a single leading slash, already in normal form, backslash-free,
and not ending in a dot. -/
def ValidCwd (cwd : List Char) : Prop :=
  isAbs cwd = true ∧ pyStartsWith ['/', '/'] cwd = false ∧ normpath cwd = cwd
    ∧ '\\' ∉ cwd ∧ cwd.getLast? ≠ some '.'

/-- Python `s.split(':', 1)` restricted to the first separator:
`none` when `s` contains no colon (Python raises `ValueError` on
unpacking), otherwise the parts before and after the first `':'`. -/
def splitFirstColon : List Char → Option (List Char × List Char)
  | [] => none
  | c :: cs =>
    if c = ':' then some ([], cs)
    else (splitFirstColon cs).map (fun pr => (c :: pr.1, pr.2))

/-- `split_resource_url` (data.py:111): split `protocol:path`; the `nltk`
protocol passes the path through, `file` collapses a leading run of
slashes to a single one, anything else strips up to two leading slashes.
`none` models the `ValueError` raised when the url has no colon. -/
def splitResourceUrl (resourceUrl : List Char) : Option (List Char × List Char) :=
  match splitFirstColon resourceUrl with
  | none => none
  | some (protocol, path0) =>
    if protocol = "nltk".toList then some (protocol, path0)
    else if protocol = "file".toList then
      if pyStartsWith ['/'] path0 then some (protocol, '/' :: lstripSlash path0)
      else some (protocol, path0)
    else some (protocol, dropTwoSlashes path0)

/-- `bool(re.search(r'[\\/.]$', resource_name)) or
resource_name.endswith(os.path.sep)` (the POSIX separator is `'/'`,
subsumed by the character class). -/
def isDirName (r : List Char) : Bool :=
  match r.getLast? with
  | some ch => ch = '\\' || ch = '/' || ch = '.'
  | none => false

/-- `.replace('\\', '/').replace(os.path.sep, '/')`; the second replace is
the identity on POSIX. -/
def backslashToSlash (r : List Char) : List Char :=
  r.map (fun ch => if ch = '\\' then '/' else ch)

/-- `normalize_resource_name` (data.py:194), POSIX branches: compute the
directory flag from the raw name, collapse leading slashes, then either
`normpath` (relative allowed) or `abspath(join(relative_path or '.', r))`,
convert backslashes to slashes, and restore a trailing slash for
directory-like names. -/
def normalizeResourceName (cwd : List Char) (allowRelative : Bool)
    (relativePath : Option (List Char)) (resourceName : List Char) : List Char :=
  let dirFlag := isDirName resourceName
  let r := collapseSlashes resourceName
  let r := if allowRelative then normpath r
    else abspath cwd (pathJoin (relativePath.getD ['.']) r)
  let r := backslashToSlash r
  if dirFlag && r.getLast? != some '/' then r ++ ['/'] else r

/-- The protocol/name pair `normalize_resource_url` works on: the result
of `split_resource_url`, defaulting to the `nltk` protocol with the raw
url as name when the split raises `ValueError`. -/
def urlSplitOrDefault (u : List Char) : List Char × List Char :=
  match splitResourceUrl u with
  | none => ("nltk".toList, u)
  | some pn => pn

/-- `normalize_resource_url` (data.py:138).  A url without a colon
defaults to the `nltk` protocol with the raw string as name; an `nltk`
url with an absolute path is reinterpreted as a `file` url; `nltk` and
`file` paths are normalized; anything else is reassembled as
`protocol://name`. -/
def normalizeResourceUrl (cwd : List Char) (resourceUrl : List Char) : List Char :=
  let pr := urlSplitOrDefault resourceUrl
  let protocol := pr.1
  let name := pr.2
  if protocol = "nltk".toList && isAbs name then
    "file://".toList ++ normalizeResourceName cwd false none name
  else if protocol = "file".toList then
    "file://".toList ++ normalizeResourceName cwd false none name
  else if protocol = "nltk".toList then
    "nltk:".toList ++ normalizeResourceName cwd true none name
  else
    protocol ++ "://".toList ++ name

/-! ## Filesystem model

The filesystem is keyed by canonical absolute paths (the form `abspath`
produces); `isfile`/`isdir`/`exists` checks resolve their argument
against the working directory first, as the OS does for relative paths
(symbolic links are not modelled). -/

/-- A filesystem object: a regular file carries its raw bytes and, when
those bytes are valid gzip data, the decompressed view (gzip coding
itself is external to `data.py`); a zip archive carries its raw bytes
and its member table. -/
inductive FsNode
  | file (bytes : List Nat) (gunzipped : Option (List Nat))
  | zipArchive (raw : List Nat) (entries : List (List Char × List Nat))
  deriving DecidableEq

structure Fs where
  cwd : List Char
  nodes : List (List Char × FsNode)
  dirs : List (List Char)
  /-- the module-level `nltk.data.path` search path. -/
  searchPath : List (List Char)
  /-- remote resources reachable through `urlopen`, keyed by url. -/
  web : List (List Char × List Nat)
  deriving DecidableEq

def Fs.lookup (fs : Fs) (p : List Char) : Option FsNode :=
  (fs.nodes.find? (fun e => e.1 == p)).map (fun e => e.2)

/-- `os.path.exists` on an already-canonical absolute path. -/
def Fs.existsAbs (fs : Fs) (p : List Char) : Bool :=
  (fs.lookup p).isSome || fs.dirs.contains p

/-- `os.path.isfile`. -/
def Fs.isfileAt (fs : Fs) (p : List Char) : Bool :=
  (fs.lookup (abspath fs.cwd p)).isSome

/-- `os.path.isdir`. -/
def Fs.isdirAt (fs : Fs) (p : List Char) : Bool :=
  fs.dirs.contains (abspath fs.cwd p)

/-- `os.path.exists`. -/
def Fs.existsAt (fs : Fs) (p : List Char) : Bool :=
  fs.existsAbs (abspath fs.cwd p)

/-- Python exceptions raised by the embedded code. -/
inductive PyErr
  /-- `IOError` / `OSError`. -/
  | ioErr
  /-- `zipfile.BadZipFile`: a `.zip`-named regular file that is not an archive. -/
  | badZipFile
  /-- `KeyError` from `zipfile.ZipFile.read` on a missing member name. -/
  | keyErr
  /-- `AssertionError` (`assert self.fp is None`). -/
  | assertionErr
  /-- The `LookupError` raised by `find`, carrying the normalized resource
  name and the searched roots (its message enumerates the roots). -/
  | lookupErr (resourceName : List Char) (searched : List (List Char))
  /-- `ValueError` (unknown or undeterminable format). -/
  | valueErr
  /-- `UnicodeDecodeError`. -/
  | unicodeErr
  /-- `NotImplementedError`. -/
  | notImplementedErr
  /-- `UnboundLocalError`: a local variable referenced before assignment. -/
  | unboundLocalErr
  /-- An error surfaced by `urllib.request.urlopen`. -/
  | urlErr
  /-- Model artifact: the bounded recursion in `findFuel` ran out of fuel;
  `find` supplies more fuel than any recursion chain can consume. -/
  | fuelOut
  deriving DecidableEq

/-- The constructed path-pointer variants: `FileSystemPathPointer`,
`GzipFileSystemPathPointer` and `ZipFilePathPointer` (the latter stores
the canonical location of its archive and the normalized entry). -/
inductive PathPtr
  | fileSystem (path : List Char)
  | gzipFileSystem (path : List Char)
  | zipEntry (zipLocation : List Char) (entry : List Char)
  deriving DecidableEq

/-! ## `OpenOnDemandZipFile` (data.py:986) -/

structure OpenOnDemandZipFile where
  filename : List Char
  entries : List (List Char × List Nat)
  /-- whether the underlying file descriptor is currently open (`self.fp`). -/
  fpOpen : Bool
  /-- `self._fileRefCnt`. -/
  fileRefCnt : Nat
  deriving DecidableEq

/-- `OpenOnDemandZipFile.__init__` (data.py:996): `zipfile.ZipFile.__init__`
opens `filename` and reads the member directory (raising `IOError` when
the file is missing and `BadZipFile` when it is not an archive); the
constructor then calls `close()` and zeroes `_fileRefCnt`, so the new
handle holds no open descriptor. -/
def OpenOnDemandZipFile.init (fs : Fs) (filename : List Char) :
    Except PyErr OpenOnDemandZipFile :=
  match fs.lookup (abspath fs.cwd filename) with
  | some (.zipArchive _ es) =>
    .ok { filename := filename, entries := es, fpOpen := false, fileRefCnt := 0 }
  | some (.file _ _) => .error .badZipFile
  | none => .error .ioErr

/-- `OpenOnDemandZipFile.read` (data.py:1007): assert the descriptor is
closed, reopen the physical file, perform the single member read via
`zipfile.ZipFile.read` (which raises `KeyError` — before touching the
refcount — when the member name is missing), bump `_fileRefCnt` by the
one file opened, and `close()`, which brings the count back down and
closes the descriptor when it reaches zero.  The handle state is
returned alongside the result so the descriptor bookkeeping is
observable; on a `KeyError` the exception propagates with the
descriptor still open. -/
def OpenOnDemandZipFile.readEntry (z : OpenOnDemandZipFile) (name : List Char) :
    Except PyErr (List Nat) × OpenOnDemandZipFile :=
  if z.fpOpen then (.error .assertionErr, z)
  else
    let zOpen := { z with fpOpen := true }
    match z.entries.find? (fun e => e.1 == name) with
    | none => (.error .keyErr, zOpen)
    | some e =>
      let cnt := z.fileRefCnt + 1
      (.ok e.2, { z with fpOpen := (cnt - 1) != 0, fileRefCnt := cnt - 1 })

/-- `OpenOnDemandZipFile.write`/`writestr` (data.py:1017): read-only. -/
def OpenOnDemandZipFile.writeEntry (_z : OpenOnDemandZipFile) : Except PyErr Unit :=
  .error .notImplementedErr

/-! ## Path pointers (data.py:245-549) -/

/-- The member check of `ZipFilePathPointer.__init__` (data.py:482-496):
`zipfile.getinfo(entry)` succeeds on an exact member name; failing that,
a directory-style entry (trailing slash) is accepted when some member
name starts with it. -/
def zipEntryOk (es : List (List Char × List Nat)) (entry : List Char) : Bool :=
  (es.find? (fun e => e.1 == entry)).isSome
    || (pyEndsWith ['/'] entry && es.any (fun e => pyStartsWith entry e.1))

/-- `ZipFilePathPointer.__init__` (data.py:466) when the `zipfile`
argument is already an open-on-demand handle bound to the archive at
(canonical) `zipLocation`: normalize the entry
(`normalize_resource_name(entry, True, '/')` then `lstrip('/')`) and,
unless it is empty, check that it exists, raising `IOError` otherwise. -/
def ZipFilePathPointer.initFromHandle (fs : Fs) (zipLocation entry : List Char) :
    Except PyErr PathPtr :=
  let e := lstripSlash (normalizeResourceName fs.cwd true (some ['/']) entry)
  if e = [] then .ok (.zipEntry zipLocation e)
  else
    match fs.lookup zipLocation with
    | some (.zipArchive _ es) =>
      if zipEntryOk es e then .ok (.zipEntry zipLocation e) else .error .ioErr
    | _ => .error .ioErr

/-- `ZipFilePathPointer.__init__` (data.py:466) when the `zipfile`
argument is a string: construct `OpenOnDemandZipFile(os.path.abspath(zipfile))`
first (validating the archive), then proceed as with a handle. -/
def ZipFilePathPointer.init (fs : Fs) (zipfileName entry : List Char) :
    Except PyErr PathPtr :=
  match OpenOnDemandZipFile.init fs (abspath fs.cwd zipfileName) with
  | .error e => .error e
  | .ok z => ZipFilePathPointer.initFromHandle fs z.filename entry

/-- `ZipFilePathPointer.join` (data.py:539): concatenate the entry and
`fileid` with `'/'` and construct a new pointer on the same handle — whose
constructor re-checks that the concatenated entry exists. -/
def ZipFilePathPointer.joinEntry (fs : Fs) (zipLocation entry fileid : List Char) :
    Except PyErr PathPtr :=
  ZipFilePathPointer.initFromHandle fs zipLocation (entry ++ '/' :: fileid)

/-- `FileSystemPathPointer.__init__` (data.py:293): absolutize the path
and check existence, raising `IOError` otherwise. -/
def FileSystemPathPointer.init (fs : Fs) (p : List Char) : Except PyErr PathPtr :=
  let ap := abspath fs.cwd p
  if fs.existsAbs ap then .ok (.fileSystem ap) else .error .ioErr

/-- The text encodings the loader itself uses (`load` decodes text
resources with UTF-8, falling back to Latin-1). -/
inductive Enc
  | utf8
  | latin1
  deriving DecidableEq

/-- Strict UTF-8 decoding of bytes to code points
(Python `bytes.decode('utf-8')`); `none` models `UnicodeDecodeError`. -/
def utf8Decode : List Nat → Option (List Nat)
  | [] => some []
  | b :: bs =>
    if b < 0x80 then (utf8Decode bs).map (b :: ·)
    else if 0xC2 ≤ b ∧ b ≤ 0xDF then
      match bs with
      | b2 :: bs2 =>
        if 0x80 ≤ b2 ∧ b2 ≤ 0xBF then
          (utf8Decode bs2).map (((b - 0xC0) * 64 + (b2 - 0x80)) :: ·)
        else none
      | _ => none
    else if 0xE0 ≤ b ∧ b ≤ 0xEF then
      match bs with
      | b2 :: b3 :: bs3 =>
        let lo2 := if b = 0xE0 then 0xA0 else 0x80
        let hi2 := if b = 0xED then 0x9F else 0xBF
        if lo2 ≤ b2 ∧ b2 ≤ hi2 ∧ 0x80 ≤ b3 ∧ b3 ≤ 0xBF then
          (utf8Decode bs3).map
            (((b - 0xE0) * 4096 + (b2 - 0x80) * 64 + (b3 - 0x80)) :: ·)
        else none
      | _ => none
    else if 0xF0 ≤ b ∧ b ≤ 0xF4 then
      match bs with
      | b2 :: b3 :: b4 :: bs4 =>
        let lo2 := if b = 0xF0 then 0x90 else 0x80
        let hi2 := if b = 0xF4 then 0x8F else 0xBF
        if lo2 ≤ b2 ∧ b2 ≤ hi2 ∧ 0x80 ≤ b3 ∧ b3 ≤ 0xBF ∧ 0x80 ≤ b4 ∧ b4 ≤ 0xBF then
          (utf8Decode bs4).map
            (((b - 0xF0) * 262144 + (b2 - 0x80) * 4096 + (b3 - 0x80) * 64 + (b4 - 0x80)) :: ·)
        else none
      | _ => none
    else none

/-- Latin-1 decoding: each byte is its own code point, never failing. -/
def latin1Decode (bs : List Nat) : List Nat := bs

def decodeWith : Enc → List Nat → Option (List Nat)
  | .utf8, bs => utf8Decode bs
  | .latin1, bs => some (latin1Decode bs)

/-- Streams returned by `open`: binary (`io.BytesIO`, a binary file, or a
decompressing `GzipFile`) or text (`io.TextIOWrapper` / `io.StringIO`),
with text already decoded to code points. -/
inductive DataStream
  | binary (bytes : List Nat)
  | text (chars : List Nat)
  deriving DecidableEq

/-- `FileSystemPathPointer.open` (data.py:314): binary mode without an
encoding, text mode with one.  Reading a zip archive as a plain file
yields its raw bytes. -/
def FileSystemPathPointer.openStream (fs : Fs) (p : List Char) (encoding : Option Enc) :
    Except PyErr DataStream :=
  match fs.lookup p with
  | some (.file data _) | some (.zipArchive data _) =>
    match encoding with
    | none => .ok (.binary data)
    | some enc =>
      match decodeWith enc data with
      | some t => .ok (.text t)
      | none => .error .unicodeErr
  | none => .error .ioErr

/-- `GzipFileSystemPathPointer.open` (data.py:448): wrap the file in a
decompressing `GzipFile` (reading fails when the bytes are not valid
gzip data), then optionally in a text wrapper. -/
def GzipFileSystemPathPointer.openStream (fs : Fs) (p : List Char)
    (encoding : Option Enc) : Except PyErr DataStream :=
  match fs.lookup p with
  | some (.file _ (some unzipped)) =>
    match encoding with
    | none => .ok (.binary unzipped)
    | some enc =>
      match decodeWith enc unzipped with
      | some t => .ok (.text t)
      | none => .error .unicodeErr
  | _ => .error .ioErr

/-- `ZipFilePathPointer.open` (data.py:516): read the whole member via
the shared handle (`KeyError` when the member name has no exact match —
possible for directory-style entries).  When the entry name ends in
`.gz` the source executes `stream = GzipFile(self._entry, fileobj=stream)`
(or the `BufferedGzipFile` variant on old interpreters): the local
`stream` is referenced before any assignment — only `data` was assigned —
so Python raises `UnboundLocalError` in either branch.  Otherwise the
bytes are wrapped in a `BytesIO` or, with an encoding, decoded into a
`StringIO`. -/
def ZipFilePathPointer.openStream (fs : Fs) (zipLocation entry : List Char)
    (encoding : Option Enc) : Except PyErr DataStream :=
  match fs.lookup zipLocation with
  | some (.zipArchive _ es) =>
    match es.find? (fun e => e.1 == entry) with
    | none => .error .keyErr
    | some e =>
      if pyEndsWith ".gz".toList entry then .error .unboundLocalErr
      else
        match encoding with
        | none => .ok (.binary e.2)
        | some enc =>
          match decodeWith enc e.2 with
          | some t => .ok (.text t)
          | none => .error .unicodeErr
  | _ => .error .ioErr

/-- `PathPointer.open` dispatched over the constructed variants. -/
def openPtr (fs : Fs) (encoding : Option Enc) : PathPtr → Except PyErr DataStream
  | .fileSystem p => FileSystemPathPointer.openStream fs p encoding
  | .gzipFileSystem p => GzipFileSystemPathPointer.openStream fs p encoding
  | .zipEntry z e => ZipFilePathPointer.openStream fs z e encoding

/-- `file_size` of both pointer variants (data.py:321 and data.py:534):
`raise NotImplementedError` is the first statement of each body; the
`os.stat(...)` / `getinfo(...)` returns after it are dead code. -/
def fileSizePtr (_fs : Fs) (_p : PathPtr) : Except PyErr Nat :=
  .error .notImplementedErr

/-! ## `find` (data.py:563) -/

/-- `urllib.request.url2pathname` on POSIX percent-unquotes its argument;
it is the identity on names without a `'%'` character, which is the only
case the theorems below exercise. -/
def url2pathname (p : List Char) : List Char := p

/-- `re.match(r'(.*\.zip)/?(.*)$|', resource_name)` (data.py:608): the
greedy `.*` makes the first group the longest prefix ending in `.zip`
(`none` — both groups empty — when there is no such prefix, matching the
empty alternative); an optional `/` after the prefix is consumed, the
rest is the entry.  (`.` does not match a newline; resource names are
assumed newline-free.) -/
def zipComponentSplit (name : List Char) : Option (List Char × List Char) :=
  match ((List.range (name.length + 1)).filter
      (fun i => pyEndsWith ".zip".toList (name.take i))).getLast? with
  | none => none
  | some i =>
    let rest := name.drop i
    some (name.take i, if pyStartsWith ['/'] rest then rest.drop 1 else rest)

/-- One rewrite of the fallback loop (data.py:645):
`'/'.join(pieces[:i] + [pieces[i] + '.zip'] + pieces[i:])`. -/
def modifiedName (pieces : List (List Char)) (i : Nat) : List Char :=
  pyJoin '/' (pieces.take i ++ ((pieces.getD i []) ++ ".zip".toList) :: pieces.drop i)

/-- One iteration of the search loop of `find` (data.py:612-637) at a
single root: a nonempty root that is a `.zip` regular file is opened as
an archive with the whole resource name as entry (a caught `IOError`
means "not in this archive" and is a miss); an empty root or a directory
root joins the resource name — or its zip-component split — and builds
the matching pointer variant; any other root is a miss.  `ok none` is a
miss (`continue`); errors other than the caught `IOError` propagate. -/
def findInRoot (fs : Fs) (resourceName : List Char)
    (zipSplit : Option (List Char × List Char)) (root : List Char) :
    Except PyErr (Option PathPtr) :=
  if root ≠ [] ∧ fs.isfileAt root ∧ pyEndsWith ".zip".toList root then
    match ZipFilePathPointer.init fs root resourceName with
    | .ok ptr => .ok (some ptr)
    | .error .ioErr => .ok none
    | .error e => .error e
  else if root = [] ∨ fs.isdirAt root then
    match zipSplit with
    | none =>
      let p := pathJoin root (url2pathname resourceName)
      if fs.existsAt p then
        -- The pointer constructors re-run the existence check just made.
        if pyEndsWith ".gz".toList p then .ok (some (.gzipFileSystem (abspath fs.cwd p)))
        else .ok (some (.fileSystem (abspath fs.cwd p)))
      else .ok none
    | some (zf, ze) =>
      let p := pathJoin root (url2pathname zf)
      if fs.existsAt p then
        match ZipFilePathPointer.init fs p ze with
        | .ok ptr => .ok (some ptr)
        | .error .ioErr => .ok none
        | .error e => .error e
      else .ok none
  else .ok none

/-- The search loop of `find` over the roots, in order: the first hit
wins, misses continue (data.py:612-637). -/
def findInRoots (fs : Fs) (resourceName : List Char)
    (zipSplit : Option (List Char × List Char)) :
    List (List Char) → Except PyErr (Option PathPtr)
  | [] => .ok none
  | root :: rest =>
    match findInRoot fs resourceName zipSplit root with
    | .ok none => findInRoots fs resourceName zipSplit rest
    | r => r

/-- The fallback loop of `find` (data.py:644-650): return the first
successful rewrite, swallowing only `LookupError` (any other exception —
including the model artifact `fuelOut` — propagates, as in the source);
when every attempt fails, raise the final `LookupError`. -/
def firstFallback (notFound : PyErr) :
    List (Except PyErr PathPtr) → Except PyErr PathPtr
  | [] => .error notFound
  | r :: rs =>
    match r with
    | .ok ptr => .ok ptr
    | .error (.lookupErr _ _) => firstFallback notFound rs
    | .error e => .error e

/-- `find` (data.py:563) with a recursion budget: normalize the resource
name, detect an embedded zip component, scan the roots in order, and —
when nothing matched and no zip component was present — retry the whole
resolution with each path segment wrapped in a same-named `.zip` archive,
left to right.  The final `LookupError` carries the normalized name and
the searched roots.  The fuel bounds only the nesting of fallback
recursion; `find` supplies more than any chain can consume. -/
def findFuel (fuel : Nat) (fs : Fs) (resourceName0 : List Char)
    (paths : List (List Char)) : Except PyErr PathPtr :=
  match fuel with
  | 0 => .error .fuelOut
  | fuel' + 1 =>
    let resourceName := normalizeResourceName fs.cwd true none resourceName0
    let zipSplit := zipComponentSplit resourceName
    match findInRoots fs resourceName zipSplit paths with
    | .error e => .error e
    | .ok (some ptr) => .ok ptr
    | .ok none =>
      match zipSplit with
      | some _ => .error (.lookupErr resourceName paths)
      | none =>
        let pieces := pySplit '/' resourceName
        firstFallback (.lookupErr resourceName paths)
          ((List.range pieces.length).map
            (fun i => findFuel fuel' fs (modifiedName pieces i) paths))

/-- `find` with its default budget. -/
def find (fs : Fs) (resourceName : List Char) (paths : List (List Char)) :
    Except PyErr PathPtr :=
  findFuel (resourceName.length + 4) fs resourceName paths

instance {ε α : Type} [DecidableEq ε] [DecidableEq α] : DecidableEq (Except ε α) :=
  fun a b =>
    match a, b with
    | .ok x, .ok y => decidable_of_iff (x = y) (by simp)
    | .error x, .error y => decidable_of_iff (x = y) (by simp)
    | .ok _, .error _ => isFalse (by simp)
    | .error _, .ok _ => isFalse (by simp)

/-- A small filesystem exercising the archive fallback: the only content
is the archive `/data/a/b.zip` holding the single member `b/c`. -/
def fsA : Fs :=
  { cwd := "/home".toList
    nodes := [("/data/a/b.zip".toList, .zipArchive [80, 75] [("b/c".toList, [7, 8])])]
    dirs := ["/data".toList, "/data/a".toList]
    searchPath := ["/data".toList]
    web := [] }

/-! ## Formats, cache and `load` (data.py:705-919) -/

/-- The keys of `FORMATS` (data.py:705). -/
def FORMATS : List (List Char) :=
  ["pickle", "json", "yaml", "cfg", "pcfg", "fcfg", "fol", "logic",
   "val", "raw", "text"].map String.toList

/-- `AUTO_FORMATS` (data.py:725): file extension to format name. -/
def AUTO_FORMATS : List (List Char × List Char) :=
  [("pickle", "pickle"), ("json", "json"), ("yaml", "yaml"), ("cfg", "cfg"),
   ("pcfg", "pcfg"), ("fcfg", "fcfg"), ("fol", "fol"), ("logic", "logic"),
   ("val", "val"), ("txt", "text"), ("text", "text")].map
    (fun e => (e.1.toList, e.2.toList))

/-- The extension `load` infers a format from (data.py:795-798): split
the whole url on `'.'` and take the last part, or — when that part is
`gz` — the part before it (a normalized url always contains a colon, so
the part list has at least two elements whenever the last one is `gz`). -/
def autoExt (resourceUrl : List Char) : List Char :=
  let parts := pySplit '.' resourceUrl
  let ext := parts.getLastD []
  if ext = "gz".toList then parts.getD (parts.length - 2) [] else ext

/-- Decoded resource values.  The payloads of externally-decoded formats
are kept abstract (see `externalSerializedDecode` / `externalDecode`). -/
inductive Value
  | raw (bytes : List Nat)
  | text (chars : List Nat)
  | serialized (format : List Char) (bytes : List Nat)
  | parsed (format : List Char) (chars : List Nat)
  deriving DecidableEq

/-- Modelled from the spec: the structured-serialized decoders (the
`pickle`, `json` and `yaml` modules used at data.py:826-839) are external
collaborators (spec §1, §6), so decoding is abstracted as a constructor
applied to the stream's bytes. -/
def externalSerializedDecode (format : List Char) (bytes : List Nat) : Value :=
  .serialized format bytes

/-- Modelled from the spec: the grammar/logic decoders invoked at
data.py:852-874 realize the external interface
`decode(text, formatKind, params) -> Value` (spec §6), so decoding is
abstracted as a constructor applied to the decoded text. -/
def externalDecode (format : List Char) (chars : List Nat) : Value :=
  .parsed format chars

/-- Modelled from the spec: `load` calls `nltk.compat.add_py3_data`, a
helper outside this module (`src/` holds only `data.py`); the spec's
`load` (§4.5) applies only URL normalization before format inference, so
the helper is modelled as the identity. -/
def addPy3Data (resourceUrl : List Char) : List Char := resourceUrl

/-- The process-wide `_resource_cache` dictionary (data.py:558), keyed
by `(resource_url, format)`.  Assignment prepends and lookup takes the
first match, so the newest binding wins, as in a dict. -/
structure ResourceCache where
  entries : List ((List Char × List Char) × Value)
  deriving DecidableEq

def ResourceCache.lookup (c : ResourceCache) (k : List Char × List Char) :
    Option Value :=
  (c.entries.find? (fun e => e.1 == k)).map (fun e => e.2)

def ResourceCache.store (c : ResourceCache) (k : List Char × List Char)
    (v : Value) : ResourceCache :=
  ⟨(k, v) :: c.entries⟩

/-- `clear_cache` (data.py:914): drop every entry unconditionally. -/
def clearCache (_c : ResourceCache) : ResourceCache := ⟨[]⟩

def lowerChar (c : Char) : Char :=
  if 'A' ≤ c ∧ c ≤ 'Z' then Char.ofNat (c.toNat + 32) else c

/-- Python `str.lower()` (ASCII range; protocols are ASCII). -/
def pyLower (s : List Char) : List Char := s.map lowerChar

/-- `_open` (data.py:922): normalize the url and dispatch on its
protocol — `nltk` urls are resolved along `path + ['']`, `file` urls
along `['']` only, anything else goes to `urlopen` (the external
transport is modelled by the `web` table).  The streams are opened
without an encoding.  The split cannot fail on a normalized url; its
`ValueError` would propagate. -/
def underscoreOpen (fs : Fs) (resourceUrl : List Char) : Except PyErr DataStream :=
  let ru := normalizeResourceUrl fs.cwd resourceUrl
  match splitResourceUrl ru with
  | none => .error .valueErr
  | some (protocol, p) =>
    if pyLower protocol = "nltk".toList then
      match find fs p (fs.searchPath ++ [[]]) with
      | .error e => .error e
      | .ok ptr => openPtr fs none ptr
    else if pyLower protocol = "file".toList then
      match find fs p [[]] with
      | .error e => .error e
      | .ok ptr => openPtr fs none ptr
    else
      match fs.web.find? (fun e => e.1 == ru) with
      | some e => .ok (.binary e.2)
      | none => .error .urlErr

/-- `stream.read()` for the streams `_open` produces; `_open` never
passes an encoding, so the stream is always binary. -/
def streamBytes : DataStream → List Nat
  | .binary d => d
  | .text t => t

/-- The resolve/read/decode cycle of `load` (data.py:822-876): open the
resource, read it, and decode according to `format`: `raw` passes the
bytes through; `pickle`/`json`/`yaml` go to the external serialized
decoders; everything else is a text format — decoded with the explicit
encoding when given, else UTF-8 falling back to Latin-1 — with `text`
returned as the decoded string and the grammar/logic formats delegated
to the external decoders. -/
def computeValue (fs : Fs) (ru fmt : List Char) (encoding : Option Enc) :
    Except PyErr Value :=
  match underscoreOpen fs ru with
  | .error e => .error e
  | .ok stream =>
    let data := streamBytes stream
    if fmt = "raw".toList then .ok (.raw data)
    else if fmt = "pickle".toList ∨ fmt = "json".toList ∨ fmt = "yaml".toList then
      .ok (externalSerializedDecode fmt data)
    else
      let decoded := match encoding with
        | some enc => decodeWith enc data
        | none =>
          match utf8Decode data with
          | some t => some t
          | none => some (latin1Decode data)
      match decoded with
      | none => .error .unicodeErr
      | some chars =>
        if fmt = "text".toList then .ok (.text chars)
        else .ok (externalDecode fmt chars)

/-- The format-determination step of `load` (data.py:794-804): when the
requested format is `auto`, infer it from the url's extension, failing
with `ValueError` when the extension has no mapping. -/
def resolveFormat (ru fmt0 : List Char) : Except PyErr (List Char) :=
  if fmt0 = "auto".toList then
    match AUTO_FORMATS.find? (fun e => e.1 == autoExt ru) with
    | some e => .ok e.2
    | none => .error .valueErr
  else .ok fmt0

/-- `load` (data.py:740): normalize the url (plus the externally-modelled
`add_py3_data`), determine the format, reject formats outside `FORMATS`,
consult the cache, and otherwise run the resolve/read/decode cycle and
store the result.  The returned `Bool` records whether the cycle ran
(`false` for a cache hit).  The `TypeError` guard around the cache store
cannot fire for a plain dict and is not modelled. -/
def load (fs : Fs) (cache : ResourceCache) (resourceUrl fmt0 : List Char)
    (useCache : Bool) (encoding : Option Enc) :
    Except PyErr (Value × ResourceCache × Bool) :=
  let ru := addPy3Data (normalizeResourceUrl fs.cwd resourceUrl)
  match resolveFormat ru fmt0 with
  | .error e => .error e
  | .ok fmt =>
    if !FORMATS.contains fmt then .error .valueErr
    else
      match useCache, cache.lookup (ru, fmt) with
      | true, some v => .ok (v, cache, false)
      | _, _ =>
        match computeValue fs ru fmt encoding with
        | .error e => .error e
        | .ok v =>
          .ok (v, if useCache then cache.store (ru, fmt) v else cache, true)

/-- A small filesystem for the loader: one plain text file. -/
def fsB : Fs :=
  { cwd := "/home".toList
    nodes := [("/data/x.txt".toList, .file [104, 105] none)]
    dirs := ["/data".toList]
    searchPath := ["/data".toList]
    web := [] }

/-! ## Named views of `find`'s candidate order

These definitions name the candidates `find` attempts, following the
spec's description of the resolution order; the ordering theorems relate
`find` to them. -/

/-- The name `find` actually searches for:
`normalize_resource_name(resource_name, True)` (data.py:600). -/
def findName (fs : Fs) (rn0 : List Char) : List Char :=
  normalizeResourceName fs.cwd true none rn0

/-- The zip-component split `find` computes from the normalized name
(data.py:608). -/
def findZipSplit (fs : Fs) (rn0 : List Char) : Option (List Char × List Char) :=
  zipComponentSplit (findName fs rn0)

/-- The literal candidate attempt of `find` at a single root. -/
def rootAttempt (fs : Fs) (rn0 root : List Char) : Except PyErr (Option PathPtr) :=
  findInRoot fs (findName fs rn0) (findZipSplit fs rn0) root

/-- The `i`-th fallback rewrite of the normalized name. -/
def fallbackName (fs : Fs) (rn0 : List Char) (i : Nat) : List Char :=
  modifiedName (pySplit '/' (findName fs rn0)) i

/-- A zip archive holding a gzip-compressed member. -/
def fsC : Fs :=
  { cwd := "/home".toList
    nodes := [("/z.zip".toList,
      .zipArchive [80, 75] [("w.txt.gz".toList, [31, 139, 8])])]
    dirs := []
    searchPath := []
    web := [] }

/-- A freshly-constructed open-on-demand handle on a one-member archive. -/
def zC7 : OpenOnDemandZipFile :=
  { filename := "/z.zip".toList
    entries := [("a".toList, [1])]
    fpOpen := false
    fileRefCnt := 0 }

/-- The handle `OpenOnDemandZipFile.init fsC "/z.zip"` constructs. -/
def zInitC7 : OpenOnDemandZipFile :=
  { filename := "/z.zip".toList
    entries := [("w.txt.gz".toList, [31, 139, 8])]
    fpOpen := false
    fileRefCnt := 0 }

/-- The cache produced by loading `x.txt` as text from `fsB`. -/
def cacheB : ResourceCache :=
  ⟨[(("nltk:x.txt".toList, "text".toList), .text [104, 105])]⟩

/-- Two roots that both contain `x.txt`, with different contents. -/
def fsD : Fs :=
  { cwd := "/home".toList
    nodes := [("/d1/x.txt".toList, .file [1] none), ("/d2/x.txt".toList, .file [2] none)]
    dirs := ["/d1".toList, "/d2".toList]
    searchPath := ["/d1".toList, "/d2".toList]
    web := [] }

/-! ## Sanity checks (doctests of data.py and concrete runs) -/

example : normalizeResourceUrl "/cur".toList "nltk:home/nltk".toList
    = "nltk:home/nltk".toList := by decide
example : normalizeResourceUrl "/cur".toList "nltk:/home/nltk".toList
    = "file:///home/nltk".toList := by decide
example : normalizeResourceUrl "/cur".toList "file:/home/nltk".toList
    = "file:///home/nltk".toList := by decide
example : normalizeResourceUrl "/cur".toList "file:///home/nltk".toList
    = "file:///home/nltk".toList := by decide
example : normalizeResourceUrl "/cur".toList "http://example.com/dir/file".toList
    = "http://example.com/dir/file".toList := by decide
example : normalizeResourceUrl "/cur".toList "dir/file".toList
    = "nltk:dir/file".toList := by decide
example : normalizeResourceUrl "/cur".toList "file:grammar.fcfg".toList
    = "file:///cur/grammar.fcfg".toList := by decide
example : normalizeResourceName "/cur".toList true none ".".toList = "./".toList := by decide
example : normalizeResourceName "/cur".toList true none "./".toList = "./".toList := by decide
example : normalizeResourceName "/cur".toList false (some "/".toList) "dir/file".toList
    = "/dir/file".toList := by decide
example : normalizeResourceName "/cur".toList false (some "/".toList) "../dir/file".toList
    = "/dir/file".toList := by decide
example : normalizeResourceName "/cur".toList true (some "/".toList) "/dir/file".toList
    = "/dir/file".toList := by decide
example : find fsA "a/b/c".toList ["/data".toList]
    = .ok (.zipEntry "/data/a/b.zip".toList "b/c".toList) := by decide
example : find fsA "a/b.zip/b/c".toList ["/data".toList]
    = .ok (.zipEntry "/data/a/b.zip".toList "b/c".toList) := by decide
example : find fsA "a/b.zip/c".toList ["/data".toList]
    = .error (.lookupErr "a/b.zip/c".toList ["/data".toList]) := by decide
example :
    load fsB ⟨[]⟩ "x.txt".toList "text".toList true none
      = .ok (.text [104, 105],
          ⟨[(("nltk:x.txt".toList, "text".toList), .text [104, 105])]⟩, true) := by
  decide
example :
    load fsB ⟨[(("nltk:x.txt".toList, "text".toList), .text [104, 105])]⟩
        "x.txt".toList "text".toList true none
      = .ok (.text [104, 105],
          ⟨[(("nltk:x.txt".toList, "text".toList), .text [104, 105])]⟩, false) := by
  decide
example :
    load fsB ⟨[]⟩ "grammar.xyz".toList "auto".toList true none
      = .error .valueErr := by decide

/-! ## Claim theorems: pointer operations and the archive handle -/

/-- C10: for every constructed path pointer of either variant (plain-file
or archive-entry), the `file_size` operation unconditionally raises
`NotImplementedError` — it never returns a byte count, so no caller may
rely on the size being available for any pointer. -/
theorem c10_file_size_always_unimplemented (fs : Fs) (p : PathPtr) :
    fileSizePtr fs p = .error .notImplementedErr := rfl

/-- C2: opening an archive-entry pointer whose entry name ends in `.gz`
is meant to return a stream of the decompressed member (binary, or text
when an encoding is requested); instead the source's `.gz` branch reads
the member into `data` and then evaluates
`GzipFile(self._entry, fileobj=stream)` with the local `stream` still
unassigned, so `open()` raises `UnboundLocalError` for every such
pointer — with or without an encoding. -/
theorem c2_gz_entry_open_crashes :
    ZipFilePathPointer.openStream fsC "/z.zip".toList "w.txt.gz".toList none
        = .error .unboundLocalErr
      ∧ ZipFilePathPointer.openStream fsC "/z.zip".toList "w.txt.gz".toList (some .utf8)
        = .error .unboundLocalErr
      ∧ ZipFilePathPointer.openStream fsC "/z.zip".toList "w.txt.gz".toList (some .latin1)
        = .error .unboundLocalErr := by decide

/-- C7 counterexample: a read whose entry is missing raises `KeyError`
after the descriptor has been reopened and before any close, so the
handle is left holding an open descriptor outside the span of the read
call — the claimed invariant fails for failing reads. -/
theorem c7_counterexample_failed_read_leaks_descriptor :
    (zC7.readEntry "b".toList).1 = .error .keyErr
      ∧ ((zC7.readEntry "b".toList).2).fpOpen = true := by decide

/-- C7 (amended): construction validates that the archive opens, then
closes it and zeroes the open-count bookkeeping; and from such a state
every successful read reopens the physical file, reads the one entry,
and closes again, returning the count to zero — so the descriptor is
closed between any two successive successful reads.  (A read that
raises `KeyError` leaves the descriptor open instead; see the
counterexample.) -/
theorem c7_descriptor_closed_between_reads :
    (∀ (fs : Fs) (f : List Char) (z : OpenOnDemandZipFile),
      OpenOnDemandZipFile.init fs f = .ok z → z.fpOpen = false ∧ z.fileRefCnt = 0)
    ∧ (∀ (z z' : OpenOnDemandZipFile) (n : List Char) (v : List Nat),
      z.fpOpen = false → z.fileRefCnt = 0 →
      z.readEntry n = (.ok v, z') →
      z'.fpOpen = false ∧ z'.fileRefCnt = 0) := by
  constructor
  · intro fs f z h
    unfold OpenOnDemandZipFile.init at h
    cases hl : fs.lookup (abspath fs.cwd f) with
    | none => rw [hl] at h; exact absurd h (by simp)
    | some node =>
      cases node with
      | file _ _ => rw [hl] at h; exact absurd h (by simp)
      | zipArchive _ es =>
        rw [hl] at h
        have hz : z = { filename := f, entries := es, fpOpen := false, fileRefCnt := 0 } := by
          cases h; rfl
        rw [hz]
        exact ⟨rfl, rfl⟩
  · intro z z' n v hfp hcnt h
    unfold OpenOnDemandZipFile.readEntry at h
    rw [hfp] at h
    simp only [Bool.false_eq_true, if_false] at h
    cases hf : z.entries.find? (fun e => e.1 == n) with
    | none =>
      rw [hf] at h
      simp at h
    | some e =>
      rw [hf] at h
      simp only [Prod.mk.injEq] at h
      obtain ⟨-, hz'⟩ := h
      subst hz'
      rw [hcnt]
      exact ⟨rfl, rfl⟩

/-- C7 witness: both parts of the amended theorem at concrete inputs. -/
theorem c7_descriptor_closed_between_reads_witness :
    (zInitC7.fpOpen = false ∧ zInitC7.fileRefCnt = 0)
      ∧ ((zC7.readEntry "a".toList).2.fpOpen = false
          ∧ (zC7.readEntry "a".toList).2.fileRefCnt = 0) :=
  ⟨c7_descriptor_closed_between_reads.1 fsC "/z.zip".toList zInitC7 (by decide),
   c7_descriptor_closed_between_reads.2 zC7 (zC7.readEntry "a".toList).2
     "a".toList [1] (by decide) (by decide) (by decide)⟩

/-- C3 counterexample: `join` is claimed to perform no existence
validation for the archive case, deferring it to `open`/`size` — but the
new pointer is built through `ZipFilePathPointer.__init__`, which
re-validates: joining the valid pointer for `b/c` inside
`/data/a/b.zip` with the non-existent `nope` raises `IOError` from
`join` itself. -/
theorem c3_counterexample_join_validates :
    ZipFilePathPointer.joinEntry fsA "/data/a/b.zip".toList "b/c".toList "nope".toList
      = .error .ioErr := by decide

/-- C3 (amended): `p.join(fileid)` returns a new archive-entry pointer on
the same archive whose entry is `p`'s entry concatenated with `'/'` and
`fileid` — provided the concatenation is in normal form and the archive
contains it exactly or as a directory prefix; the constructor invoked by
`join` re-validates the entry (raising `IOError` otherwise), so
validation is not deferred to `open`/`size`. -/
theorem c3_join_concatenates_and_validates
    (fs : Fs) (zipLocation entry fileid : List Char) (raw : List Nat)
    (es : List (List Char × List Nat))
    (hz : fs.lookup zipLocation = some (.zipArchive raw es))
    (hnorm : lstripSlash (normalizeResourceName fs.cwd true (some ['/'])
        (entry ++ '/' :: fileid)) = entry ++ '/' :: fileid)
    (hok : zipEntryOk es (entry ++ '/' :: fileid) = true) :
    ZipFilePathPointer.joinEntry fs zipLocation entry fileid
      = .ok (.zipEntry zipLocation (entry ++ '/' :: fileid)) := by
  unfold ZipFilePathPointer.joinEntry ZipFilePathPointer.initFromHandle
  rw [hnorm, hz]
  have hne : ¬ (entry ++ '/' :: fileid = []) := by
    cases entry <;> simp
  rw [if_neg hne]
  simp only [hok, if_true]

/-- C3 witness: the amended theorem at a concrete join. -/
theorem c3_join_concatenates_and_validates_witness :
    ZipFilePathPointer.joinEntry fsA "/data/a/b.zip".toList "b".toList "c".toList
      = .ok (.zipEntry "/data/a/b.zip".toList ("b".toList ++ '/' :: "c".toList)) :=
  c3_join_concatenates_and_validates fsA "/data/a/b.zip".toList "b".toList "c".toList
    [80, 75] [("b/c".toList, [7, 8])] (by decide) (by decide) (by decide)

/-- C9: with format `auto`, `load` infers the format from the final
extension of the normalized url (the part after the last dot, or the
part before a final `gz`): when the extension has a mapping, the load
behaves exactly as if that format had been given explicitly; when it has
no mapping, `load` fails with the unknown-format error before any
resolution; and an explicitly given format outside the recognized set
fails the same way. -/
theorem c9_auto_format_inference
    (fs : Fs) (cache : ResourceCache) (url fmt : List Char)
    (useCache : Bool) (encoding : Option Enc) :
    (AUTO_FORMATS.find?
        (fun e => e.1 == autoExt (addPy3Data (normalizeResourceUrl fs.cwd url))) = none →
      load fs cache url "auto".toList useCache encoding = .error .valueErr)
    ∧ (∀ pr, AUTO_FORMATS.find?
        (fun e => e.1 == autoExt (addPy3Data (normalizeResourceUrl fs.cwd url))) = some pr →
      load fs cache url "auto".toList useCache encoding
        = load fs cache url pr.2 useCache encoding)
    ∧ (fmt ≠ "auto".toList → FORMATS.contains fmt = false →
      load fs cache url fmt useCache encoding = .error .valueErr) := by
  refine ⟨fun hnone => ?_, fun pr hsome => ?_, fun hna hnf => ?_⟩
  · simp [load, resolveFormat, hnone]
  · have hmem : pr ∈ AUTO_FORMATS := List.mem_of_find?_eq_some hsome
    have hpr : pr.2 ≠ "auto".toList := by
      simp only [AUTO_FORMATS, List.mem_map, List.mem_cons] at hmem
      obtain ⟨q, hq, rfl⟩ := hmem
      rcases hq with rfl | rfl | rfl | rfl | rfl | rfl | rfl | rfl | rfl | rfl | rfl | h
      · decide
      · decide
      · decide
      · decide
      · decide
      · decide
      · decide
      · decide
      · decide
      · decide
      · decide
      · simp at h
    simp [load, resolveFormat, hsome, hpr]
  · have hmem : fmt ∉ FORMATS := by simpa using hnf
    have hna' : ¬ (fmt = ['a', 'u', 't', 'o']) := hna
    simp [load, resolveFormat, hna', hmem]

/-! ## The resolution order of `find` -/

/-- Unfolding `findFuel` at a successor budget. -/
theorem findFuel_succ (fuel : Nat) (fs : Fs) (rn0 : List Char)
    (paths : List (List Char)) :
    findFuel (fuel + 1) fs rn0 paths =
      match findInRoots fs (findName fs rn0) (findZipSplit fs rn0) paths with
      | .error e => .error e
      | .ok (some ptr) => .ok ptr
      | .ok none =>
        match findZipSplit fs rn0 with
        | some _ => .error (.lookupErr (findName fs rn0) paths)
        | none =>
          firstFallback (.lookupErr (findName fs rn0) paths)
            ((List.range (pySplit '/' (findName fs rn0)).length).map
              (fun i => findFuel fuel fs (fallbackName fs rn0 i) paths)) := rfl

/-- Unfolding the root loop at one step. -/
theorem findInRoots_cons (fs : Fs) (rn : List Char)
    (z : Option (List Char × List Char)) (root : List Char)
    (rest : List (List Char)) :
    findInRoots fs rn z (root :: rest) =
      match findInRoot fs rn z root with
      | .ok none => findInRoots fs rn z rest
      | r => r := rfl

/-- The root loop returns the first hit, given that every earlier root
missed. -/
theorem findInRoots_first_hit (fs : Fs) (rn : List Char)
    (z : Option (List Char × List Char)) :
    ∀ (paths : List (List Char)) (i : Nat) (hi : i < paths.length) (ptr : PathPtr),
      findInRoot fs rn z (paths.get ⟨i, hi⟩) = .ok (some ptr) →
      (∀ j (hj : j < paths.length), j < i →
        findInRoot fs rn z (paths.get ⟨j, hj⟩) = .ok none) →
      findInRoots fs rn z paths = .ok (some ptr)
  | [], i, hi, _, _, _ => absurd hi (by simp)
  | root :: rest, 0, _, ptr, hhit, _ => by
    rw [findInRoots_cons, show findInRoot fs rn z root = .ok (some ptr) from hhit]
  | root :: rest, i + 1, hi, ptr, hhit, hmiss => by
    rw [findInRoots_cons,
      show findInRoot fs rn z root = .ok none from hmiss 0 (by simp) (Nat.succ_pos i)]
    exact findInRoots_first_hit fs rn z rest i (Nat.lt_of_succ_lt_succ hi) ptr hhit
      (fun j hj hlt => hmiss (j + 1) (Nat.succ_lt_succ hj) (Nat.succ_lt_succ hlt))

/-- The root loop misses exactly when every root misses. -/
theorem findInRoots_all_miss_iff (fs : Fs) (rn : List Char)
    (z : Option (List Char × List Char)) :
    ∀ (paths : List (List Char)),
      findInRoots fs rn z paths = .ok none ↔
        ∀ j (hj : j < paths.length),
          findInRoot fs rn z (paths.get ⟨j, hj⟩) = .ok none
  | [] => by
    constructor
    · intro _ j hj
      exact absurd hj (by simp)
    · intro _
      rfl
  | root :: rest => by
    rw [findInRoots_cons]
    cases hr : findInRoot fs rn z root with
    | ok o =>
      cases o with
      | none =>
        rw [findInRoots_all_miss_iff fs rn z rest]
        constructor
        · intro h j hj
          match j, hj with
          | 0, _ => exact hr
          | j + 1, hj => exact h j (Nat.lt_of_succ_lt_succ hj)
        · intro h j hj
          exact h (j + 1) (Nat.succ_lt_succ hj)
      | some ptr =>
        constructor
        · intro h
          exact absurd h (by simp)
        · intro h
          have h0 := h 0 (by simp)
          rw [show findInRoot fs rn z root = .ok none from h0] at hr
          exact absurd hr (by simp)
    | error e =>
      constructor
      · intro h
        exact absurd h (by simp)
      · intro h
        have h0 := h 0 (by simp)
        rw [show findInRoot fs rn z root = .ok none from h0] at hr
        exact absurd hr (by simp)

/-- `ZipFilePathPointer.__init__` raises only `IOError` or `BadZipFile`. -/
theorem zfpInit_error_cases (fs : Fs) (a b : List Char) (e : PyErr)
    (h : ZipFilePathPointer.init fs a b = .error e) :
    e = .ioErr ∨ e = .badZipFile := by
  unfold ZipFilePathPointer.init at h
  cases ho : OpenOnDemandZipFile.init fs (abspath fs.cwd a) with
  | error e' =>
    rw [ho] at h
    simp only [] at h
    cases h
    unfold OpenOnDemandZipFile.init at ho
    cases hl : fs.lookup (abspath fs.cwd (abspath fs.cwd a)) with
    | none =>
      rw [hl] at ho
      cases ho
      exact Or.inl rfl
    | some node =>
      rw [hl] at ho
      cases node with
      | file _ _ =>
        cases ho
        exact Or.inr rfl
      | zipArchive _ _ => exact absurd ho (by simp)
  | ok z =>
    rw [ho] at h
    simp only [] at h
    unfold ZipFilePathPointer.initFromHandle at h
    simp only [] at h
    split at h
    · exact absurd h (by simp)
    · split at h
      · split at h
        · exact absurd h (by simp)
        · cases h
          exact Or.inl rfl
      · cases h
        exact Or.inl rfl

/-- A root attempt propagates only `BadZipFile`. -/
theorem findInRoot_error_badZip (fs : Fs) (rn : List Char)
    (z : Option (List Char × List Char)) (root : List Char) (e : PyErr)
    (h : findInRoot fs rn z root = .error e) : e = .badZipFile := by
  unfold findInRoot at h
  split at h
  · cases hi : ZipFilePathPointer.init fs root rn with
    | ok ptr =>
      rw [hi] at h
      exact absurd h (by simp)
    | error e' =>
      rw [hi] at h
      rcases zfpInit_error_cases fs root rn e' hi with rfl | rfl
      · simp at h
      · simp only [Except.error.injEq] at h
        exact h.symm
  · split at h
    · cases z with
      | none =>
        simp only [] at h
        split at h
        · split at h <;> exact absurd h (by simp)
        · exact absurd h (by simp)
      | some pr =>
        simp only [] at h
        split at h
        · cases hi : ZipFilePathPointer.init fs (pathJoin root (url2pathname pr.1)) pr.2 with
          | ok ptr =>
            rw [hi] at h
            exact absurd h (by simp)
          | error e' =>
            rw [hi] at h
            rcases zfpInit_error_cases _ _ _ e' hi with rfl | rfl
            · simp at h
            · simp only [Except.error.injEq] at h
              exact h.symm
        · exact absurd h (by simp)
    · exact absurd h (by simp)

/-- The root loop propagates only `BadZipFile`. -/
theorem findInRoots_error_badZip (fs : Fs) (rn : List Char)
    (z : Option (List Char × List Char)) :
    ∀ (paths : List (List Char)) (e : PyErr),
      findInRoots fs rn z paths = .error e → e = .badZipFile
  | [], e, h => absurd h (by simp [findInRoots])
  | root :: rest, e, h => by
    rw [findInRoots_cons] at h
    cases hr : findInRoot fs rn z root with
    | ok o =>
      cases o with
      | none =>
        rw [hr] at h
        exact findInRoots_error_badZip fs rn z rest e h
      | some ptr =>
        rw [hr] at h
        exact absurd h (by simp)
    | error e' =>
      rw [hr] at h
      cases h
      exact findInRoot_error_badZip fs rn z root e hr

/-- If the fallback scan fails with a `LookupError`, that error is the
final not-found error and every scanned attempt failed with a
`LookupError` of its own. -/
theorem firstFallback_lookup (nf : PyErr) :
    ∀ (rs : List (Except PyErr PathPtr)) (a : List Char) (b : List (List Char)),
      firstFallback nf rs = .error (.lookupErr a b) →
      PyErr.lookupErr a b = nf
        ∧ ∀ m (hm : m < rs.length), ∃ rm sp, rs.get ⟨m, hm⟩ = .error (.lookupErr rm sp)
  | [], a, b, h => by
    refine ⟨?_, fun m hm => absurd hm (by simp)⟩
    cases h
    rfl
  | r :: rs, a, b, h => by
    match r, h with
    | .ok ptr, h => exact absurd h (by simp [firstFallback])
    | .error (.lookupErr u v), h =>
      rw [show firstFallback nf (.error (.lookupErr u v) :: rs) = firstFallback nf rs
        from rfl] at h
      obtain ⟨h1, h2⟩ := firstFallback_lookup nf rs a b h
      refine ⟨h1, fun m hm => ?_⟩
      match m, hm with
      | 0, _ => exact ⟨u, v, rfl⟩
      | m + 1, hm => exact h2 m (Nat.lt_of_succ_lt_succ hm)
    | .error .ioErr, h => exact absurd h (by simp [firstFallback])
    | .error .badZipFile, h => exact absurd h (by simp [firstFallback])
    | .error .keyErr, h => exact absurd h (by simp [firstFallback])
    | .error .assertionErr, h => exact absurd h (by simp [firstFallback])
    | .error .valueErr, h => exact absurd h (by simp [firstFallback])
    | .error .unicodeErr, h => exact absurd h (by simp [firstFallback])
    | .error .notImplementedErr, h => exact absurd h (by simp [firstFallback])
    | .error .unboundLocalErr, h => exact absurd h (by simp [firstFallback])
    | .error .urlErr, h => exact absurd h (by simp [firstFallback])
    | .error .fuelOut, h => exact absurd h (by simp [firstFallback])

/-- If every attempt fails with a `LookupError`, the fallback scan
raises the final not-found error. -/
theorem firstFallback_all_lookup (nf : PyErr) :
    ∀ (rs : List (Except PyErr PathPtr)),
      (∀ m (hm : m < rs.length), ∃ rm sp, rs.get ⟨m, hm⟩ = .error (.lookupErr rm sp)) →
      firstFallback nf rs = .error nf
  | [], _ => rfl
  | r :: rs, h => by
    obtain ⟨rm, sp, h0⟩ := h 0 (by simp)
    rw [show r = Except.error (.lookupErr rm sp) from h0]
    rw [show firstFallback nf (.error (.lookupErr rm sp) :: rs) = firstFallback nf rs
      from rfl]
    exact firstFallback_all_lookup nf rs
      (fun m hm => h (m + 1) (Nat.succ_lt_succ hm))

/-- The fallback scan returns the first success when every earlier
attempt failed with a `LookupError`. -/
theorem firstFallback_hit (nf : PyErr) :
    ∀ (rs : List (Except PyErr PathPtr)) (k : Nat) (hk : k < rs.length) (ptr : PathPtr),
      rs.get ⟨k, hk⟩ = .ok ptr →
      (∀ m (hm : m < rs.length), m < k →
        ∃ rm sp, rs.get ⟨m, hm⟩ = .error (.lookupErr rm sp)) →
      firstFallback nf rs = .ok ptr
  | [], k, hk, _, _, _ => absurd hk (by simp)
  | r :: rs, 0, _, ptr, hhit, _ => by
    rw [show r = Except.ok ptr from hhit]
    rfl
  | r :: rs, k + 1, hk, ptr, hhit, hbefore => by
    obtain ⟨rm, sp, h0⟩ := hbefore 0 (by simp) (Nat.succ_pos k)
    rw [show r = Except.error (.lookupErr rm sp) from h0]
    rw [show firstFallback nf (.error (.lookupErr rm sp) :: rs) = firstFallback nf rs
      from rfl]
    exact firstFallback_hit nf rs k (Nat.lt_of_succ_lt_succ hk) ptr hhit
      (fun m hm hmk => hbefore (m + 1) (Nat.succ_lt_succ hm) (Nat.succ_lt_succ hmk))

/-- Any not-found error returned by `findFuel` carries exactly the
searched roots of that call. -/
theorem findFuel_lookupErr_searched (fuel : Nat) (fs : Fs) (rn0 : List Char)
    (paths : List (List Char)) (rm : List Char) (sp : List (List Char))
    (h : findFuel fuel fs rn0 paths = .error (.lookupErr rm sp)) : sp = paths := by
  match fuel with
  | 0 => exact absurd h (by simp [findFuel])
  | fuel + 1 =>
    rw [findFuel_succ] at h
    cases hr : findInRoots fs (findName fs rn0) (findZipSplit fs rn0) paths with
    | error e =>
      rw [hr] at h
      have := findInRoots_error_badZip fs _ _ paths e hr
      subst this
      exact absurd h (by simp)
    | ok o =>
      rw [hr] at h
      cases o with
      | some ptr => exact absurd h (by simp)
      | none =>
        cases hz : findZipSplit fs rn0 with
        | some zz =>
          rw [hz] at h
          cases h
          rfl
        | none =>
          rw [hz] at h
          obtain ⟨h1, -⟩ := firstFallback_lookup _ _ _ _ h
          cases h1
          rfl
/-- C5: resolution attempts candidates in a fixed total order and
returns the first success: the literal search roots are tried in
search-path order (if an earlier root's attempt succeeds after all roots
before it missed, its pointer is the result, whatever later roots hold),
and the archive-rewrite fallback runs only after every literal root has
missed, trying rewrite positions left-to-right (shallowest segment
first). -/
theorem c5_resolution_order :
    (∀ (fuel : Nat) (fs : Fs) (rn0 : List Char) (paths : List (List Char))
        (i : Nat) (hi : i < paths.length) (ptr : PathPtr),
      rootAttempt fs rn0 (paths.get ⟨i, hi⟩) = .ok (some ptr) →
      (∀ j (hj : j < paths.length), j < i →
        rootAttempt fs rn0 (paths.get ⟨j, hj⟩) = .ok none) →
      findFuel (fuel + 1) fs rn0 paths = .ok ptr)
    ∧ (∀ (fuel : Nat) (fs : Fs) (rn0 : List Char) (paths : List (List Char))
        (k : Nat) (ptr : PathPtr),
      findZipSplit fs rn0 = none →
      (∀ j (hj : j < paths.length),
        rootAttempt fs rn0 (paths.get ⟨j, hj⟩) = .ok none) →
      k < (pySplit '/' (findName fs rn0)).length →
      findFuel fuel fs (fallbackName fs rn0 k) paths = .ok ptr →
      (∀ m, m < k → ∃ rm sp,
        findFuel fuel fs (fallbackName fs rn0 m) paths
          = .error (.lookupErr rm sp)) →
      findFuel (fuel + 1) fs rn0 paths = .ok ptr) := by
  constructor
  · intro fuel fs rn0 paths i hi ptr hhit hmiss
    rw [findFuel_succ,
      findInRoots_first_hit fs (findName fs rn0) (findZipSplit fs rn0) paths i hi ptr
        hhit hmiss]
  · intro fuel fs rn0 paths k ptr hz hmiss hk hhit hbefore
    rw [findFuel_succ,
      (findInRoots_all_miss_iff fs (findName fs rn0) (findZipSplit fs rn0) paths).mpr
        hmiss, hz]
    refine firstFallback_hit _ _ k (by simpa using hk) ptr ?_ ?_
    · simp only [List.get_eq_getElem, List.getElem_map, List.getElem_range]
      exact hhit
    · intro m hm hmk
      obtain ⟨rm, sp, hrm⟩ := hbefore m hmk
      refine ⟨rm, sp, ?_⟩
      simp only [List.get_eq_getElem, List.getElem_map, List.getElem_range]
      exact hrm

/-- C5 witness: first-match-wins on two roots that both hold `x.txt`
(the earlier root's pointer is returned), and the fallback order on the
`a/b/c` lookup of `fsA` (position 0 fails, position 1 — `a/b.zip/b/c` —
succeeds). -/
theorem c5_resolution_order_witness :
    findFuel 1 fsD "x.txt".toList ["/d1".toList, "/d2".toList]
        = .ok (.fileSystem "/d1/x.txt".toList)
      ∧ findFuel 4 fsA "a/b/c".toList ["/data".toList]
        = .ok (.zipEntry "/data/a/b.zip".toList "b/c".toList) :=
  ⟨c5_resolution_order.1 0 fsD "x.txt".toList ["/d1".toList, "/d2".toList] 0
      (by decide) (.fileSystem "/d1/x.txt".toList) (by decide)
      (fun j hj hlt => absurd hlt (by omega)),
   c5_resolution_order.2 3 fsA "a/b/c".toList ["/data".toList] 1
      (.zipEntry "/data/a/b.zip".toList "b/c".toList) (by decide) (by decide)
      (by decide) (by decide)
      (fun m hm => by
        have hm0 : m = 0 := by omega
        subst hm0
        exact ⟨"a.zip/a/b/c".toList, ["/data".toList], by decide⟩)⟩

/-- C6: resolution fails with the not-found `LookupError` exactly when
every literal root attempt missed and — when the name had no zip
component — every fallback rewrite itself failed with a not-found error;
the raised error carries precisely the list of searched roots.  An
entry-not-found at an individual candidate root is recovered locally:
a missing root is skipped and the loop continues with the rest, and in
particular a zip-file root whose archive does not contain the resource
(`IOError` from the pointer constructor) is a miss, not a failure. -/
theorem c6_notfound_iff_exhausted :
    (∀ (fuel : Nat) (fs : Fs) (rn0 : List Char) (paths : List (List Char))
        (rm : List Char) (sp : List (List Char)),
      findFuel (fuel + 1) fs rn0 paths = .error (.lookupErr rm sp) ↔
        (rm = findName fs rn0 ∧ sp = paths
          ∧ (∀ j (hj : j < paths.length),
              rootAttempt fs rn0 (paths.get ⟨j, hj⟩) = .ok none)
          ∧ (findZipSplit fs rn0 = none →
              ∀ i, i < (pySplit '/' (findName fs rn0)).length →
                ∃ rmi, findFuel fuel fs (fallbackName fs rn0 i) paths
                  = .error (.lookupErr rmi paths))))
    ∧ (∀ (fs : Fs) (rn : List Char) (z : Option (List Char × List Char))
        (root : List Char) (rest : List (List Char)),
      findInRoot fs rn z root = .ok none →
      findInRoots fs rn z (root :: rest) = findInRoots fs rn z rest)
    ∧ (∀ (fs : Fs) (rn : List Char) (z : Option (List Char × List Char))
        (root : List Char),
      root ≠ [] → fs.isfileAt root = true →
      pyEndsWith ".zip".toList root = true →
      ZipFilePathPointer.init fs root rn = .error .ioErr →
      findInRoot fs rn z root = .ok none) := by
  refine ⟨?_, ?_, ?_⟩
  · intro fuel fs rn0 paths rm sp
    constructor
    · intro h
      have hsp := findFuel_lookupErr_searched _ _ _ _ _ _ h
      subst hsp
      rw [findFuel_succ] at h
      cases hr : findInRoots fs (findName fs rn0) (findZipSplit fs rn0) sp with
      | error e =>
        rw [hr] at h
        have := findInRoots_error_badZip _ _ _ _ _ hr
        subst this
        simp at h
      | ok o =>
        rw [hr] at h
        cases o with
        | some ptr => simp at h
        | none =>
          cases hz : findZipSplit fs rn0 with
          | some zz =>
            rw [hz] at h
            simp only [Except.error.injEq, PyErr.lookupErr.injEq] at h
            refine ⟨h.1.symm, rfl,
              (findInRoots_all_miss_iff _ _ _ sp).mp hr, ?_⟩
            intro hznone
            exact absurd hznone (by simp)
          | none =>
            rw [hz] at h
            obtain ⟨h1, h2⟩ := firstFallback_lookup _ _ _ _ h
            refine ⟨?_, rfl, (findInRoots_all_miss_iff _ _ _ sp).mp hr, ?_⟩
            · cases h1
              rfl
            · intro _ i hi
              have hlen : i < ((List.range
                  (pySplit '/' (findName fs rn0)).length).map
                  (fun i => findFuel fuel fs (fallbackName fs rn0 i) sp)).length := by
                simpa using hi
              obtain ⟨rmi, spi, hei⟩ := h2 i hlen
              simp only [List.get_eq_getElem, List.getElem_map, List.getElem_range] at hei
              have := findFuel_lookupErr_searched _ _ _ _ _ _ hei
              subst this
              exact ⟨rmi, hei⟩
    · rintro ⟨rfl, rfl, hmiss, hfb⟩
      rw [findFuel_succ,
        (findInRoots_all_miss_iff fs (findName fs rn0) (findZipSplit fs rn0) sp).mpr
          hmiss]
      cases hz : findZipSplit fs rn0 with
      | some zz => rfl
      | none =>
        refine firstFallback_all_lookup _ _ ?_
        intro m hm
        have hm' : m < (pySplit '/' (findName fs rn0)).length := by simpa using hm
        obtain ⟨rmi, hei⟩ := hfb hz m hm'
        refine ⟨rmi, sp, ?_⟩
        simp only [List.get_eq_getElem, List.getElem_map, List.getElem_range]
        exact hei
  · intro fs rn z root rest h
    rw [findInRoots_cons, h]
  · intro fs rn z root h1 h2 h3 h4
    unfold findInRoot
    rw [if_pos ⟨h1, h2, h3⟩, h4]

/-- C6 witness: the backward direction of the iff produces the concrete
not-found error for an absent resource, and the recovery conjuncts at a
concrete zip-file root whose archive lacks the entry. -/
theorem c6_notfound_iff_exhausted_witness :
    findFuel 4 fsA "q".toList ["/data".toList]
        = .error (.lookupErr "q".toList ["/data".toList])
      ∧ findInRoots fsA "q".toList none ["/data/a/b.zip".toList, "/data".toList]
        = findInRoots fsA "q".toList none ["/data".toList]
      ∧ findInRoot fsA "q".toList none "/data/a/b.zip".toList = .ok none :=
  ⟨(c6_notfound_iff_exhausted.1 3 fsA "q".toList ["/data".toList]
      "q".toList ["/data".toList]).mpr
      ⟨by decide, rfl, by decide,
        fun _ i hi => by
          have hi0 : i = 0 := by
            have : (pySplit '/' (findName fsA "q".toList)).length = 1 := by decide
            omega
          subst hi0
          exact ⟨"q.zip/q".toList, by decide⟩⟩,
   c6_notfound_iff_exhausted.2.1 fsA "q".toList none "/data/a/b.zip".toList
      ["/data".toList] (by decide),
   c6_notfound_iff_exhausted.2.2 fsA "q".toList none "/data/a/b.zip".toList
      (by decide) (by decide) (by decide) (by decide)⟩

/-- Storing a value and looking its key up again yields that value. -/
theorem ResourceCache.lookup_store (c : ResourceCache) (k : List Char × List Char)
    (v : Value) : (c.store k v).lookup k = some v := by
  simp [ResourceCache.lookup, ResourceCache.store, List.find?_cons]

/-- C8: when a `load` with caching enabled ran a fresh
resolve/read/decode cycle, a second `load` with the identical url and
format returns the same decoded value from the cache, leaving the cache
untouched and running no second cycle; and after `clearCache` (which
drops all entries unconditionally) a subsequent `load` runs a fresh
cycle again, producing the same value. -/
theorem c8_cache_roundtrip
    (fs : Fs) (cache : ResourceCache) (url fmt : List Char) (encoding : Option Enc)
    (v : Value) (cache' : ResourceCache)
    (h : load fs cache url fmt true encoding = .ok (v, cache', true)) :
    load fs cache' url fmt true encoding = .ok (v, cache', false)
      ∧ clearCache cache' = ⟨[]⟩
      ∧ (∃ cache'', load fs (clearCache cache') url fmt true encoding
          = .ok (v, cache'', true)) := by
  unfold load at h ⊢
  simp only [] at h ⊢
  cases hf : resolveFormat (addPy3Data (normalizeResourceUrl fs.cwd url)) fmt with
  | error e =>
    simp only [hf] at h
    exact absurd h (by simp)
  | ok fmtR =>
    simp only [hf] at h ⊢
    by_cases hc : (!FORMATS.contains fmtR) = true
    · simp only [hc, if_true] at h
      exact absurd h (by simp)
    · simp only [hc, if_false] at h ⊢
      cases hl : cache.lookup (addPy3Data (normalizeResourceUrl fs.cwd url), fmtR) with
      | some v0 =>
        simp only [hl] at h
        exact absurd h (by simp)
      | none =>
        simp only [hl] at h
        cases hcv : computeValue fs (addPy3Data (normalizeResourceUrl fs.cwd url))
            fmtR encoding with
        | error e =>
          simp only [hcv] at h
          exact absurd h (by simp)
        | ok v1 =>
          simp only [hcv, Bool.false_eq_true, if_false, if_true, Except.ok.injEq,
            Prod.mk.injEq, and_true] at h
          obtain ⟨hv, hc'⟩ := h
          subst hv
          have hempty : (clearCache cache').lookup
              (addPy3Data (normalizeResourceUrl fs.cwd url), fmtR) = none := rfl
          refine ⟨?_, rfl, ?_⟩
          · rw [← hc']
            simp only [Bool.false_eq_true, if_false, if_true, ResourceCache.lookup_store]
          · refine ⟨(clearCache cache').store
              (addPy3Data (normalizeResourceUrl fs.cwd url), fmtR) v1, ?_⟩
            simp only [Bool.false_eq_true, if_false, if_true, hempty, hcv]

/-- C8 witness: the cache round trip at a concrete load — the second
load is a cache hit returning the same value with no fresh cycle, and a
load after `clearCache` runs a fresh cycle. -/
theorem c8_cache_roundtrip_witness :
    load fsB cacheB "x.txt".toList "text".toList true none
        = .ok (.text [104, 105], cacheB, false)
      ∧ clearCache cacheB = ⟨[]⟩
      ∧ (∃ cache'', load fsB (clearCache cacheB) "x.txt".toList "text".toList true none
          = .ok (.text [104, 105], cache'', true)) :=
  c8_cache_roundtrip fsB ⟨[]⟩ "x.txt".toList "text".toList none
    (.text [104, 105]) cacheB (by decide)

/-- C9 witness: the three parts at concrete loads. -/
theorem c9_auto_format_inference_witness :
    load fsB ⟨[]⟩ "grammar.xyz".toList "auto".toList true none = .error .valueErr
      ∧ load fsB ⟨[]⟩ "x.txt".toList "auto".toList true none
        = load fsB ⟨[]⟩ "x.txt".toList "text".toList true none
      ∧ load fsB ⟨[]⟩ "x.txt".toList "bogus".toList true none = .error .valueErr :=
  ⟨(c9_auto_format_inference fsB ⟨[]⟩ "grammar.xyz".toList "bogus".toList true none).1
      (by decide),
   (c9_auto_format_inference fsB ⟨[]⟩ "x.txt".toList "bogus".toList true none).2.1
      ("txt".toList, "text".toList) (by decide),
   (c9_auto_format_inference fsB ⟨[]⟩ "x.txt".toList "bogus".toList true none).2.2
      (by decide) (by decide)⟩

/-! ## Idempotence of URL normalization: split/join algebra -/

theorem pySplit_ne_nil (sep : Char) : ∀ s : List Char, pySplit sep s ≠ []
  | [] => by simp [pySplit]
  | c :: cs => by
    unfold pySplit
    split
    · simp
    · cases h : pySplit sep cs <;> simp

theorem pySplit_sep_notin (sep : Char) : ∀ (s c : List Char),
    c ∈ pySplit sep s → sep ∉ c
  | [], c, hc => by
    simp [pySplit] at hc
    simp [hc]
  | a :: s, c, hc => by
    unfold pySplit at hc
    by_cases ha : a = sep
    · rw [if_pos ha] at hc
      rcases List.mem_cons.mp hc with rfl | h
      · simp
      · exact pySplit_sep_notin sep s c h
    · rw [if_neg ha] at hc
      cases hps : pySplit sep s with
      | nil => exact absurd hps (pySplit_ne_nil sep s)
      | cons p ps =>
        rw [hps] at hc
        rcases List.mem_cons.mp hc with rfl | h
        · intro hmem
          rcases List.mem_cons.mp hmem with heq | h2
          · exact ha heq.symm
          · exact pySplit_sep_notin sep s p
              (by rw [hps]; exact List.mem_cons_self p ps) h2
        · exact pySplit_sep_notin sep s c
            (by rw [hps]; exact List.mem_cons_of_mem p h)

/-- `pyJoin` after `pySplit` restores the string. -/
theorem pyJoin_pySplit (sep : Char) : ∀ s : List Char, pyJoin sep (pySplit sep s) = s
  | [] => rfl
  | c :: cs => by
    unfold pySplit
    by_cases h : c = sep
    · rw [if_pos h]
      cases hps : pySplit sep cs with
      | nil => exact absurd hps (pySplit_ne_nil sep cs)
      | cons p ps =>
        have hrec := pyJoin_pySplit sep cs
        rw [hps] at hrec
        show pyJoin sep ([] :: p :: ps) = c :: cs
        rw [show pyJoin sep ([] :: p :: ps) = [] ++ sep :: pyJoin sep (p :: ps) from rfl,
          hrec, h]
        rfl
    · rw [if_neg h]
      cases hps : pySplit sep cs with
      | nil => exact absurd hps (pySplit_ne_nil sep cs)
      | cons p ps =>
        have hrec := pyJoin_pySplit sep cs
        rw [hps] at hrec
        cases ps with
        | nil =>
          show c :: p = c :: cs
          rw [show pyJoin sep [p] = p from rfl] at hrec
          rw [hrec]
        | cons q qs =>
          show (c :: p) ++ sep :: pyJoin sep (q :: qs) = c :: cs
          rw [show pyJoin sep (p :: q :: qs) = p ++ sep :: pyJoin sep (q :: qs)
            from rfl] at hrec
          rw [List.cons_append, hrec]

/-- The cons equation of `pySplit`. -/
theorem pySplit_cons (sep a : Char) (s : List Char) :
    pySplit sep (a :: s) =
      if a = sep then [] :: pySplit sep s
      else
        match pySplit sep s with
        | [] => [[a]]
        | p :: ps => (a :: p) :: ps := rfl

/-- A separator-free string splits into itself alone. -/
theorem pySplit_no_sep (sep : Char) : ∀ s : List Char, sep ∉ s →
    pySplit sep s = [s]
  | [], _ => rfl
  | c :: cs, h => by
    rw [pySplit_cons,
      if_neg (fun hc => h (by rw [← hc] at *; exact List.mem_cons_self c cs)),
      pySplit_no_sep sep cs (fun hm => h (List.mem_cons_of_mem c hm))]

/-- Splitting distributes over a separator occurrence. -/
theorem pySplit_append_sep (sep : Char) : ∀ (s t : List Char),
    pySplit sep (s ++ sep :: t) = pySplit sep s ++ pySplit sep t
  | [], t => by
    rw [List.nil_append, pySplit_cons, if_pos rfl]
    rfl
  | a :: s, t => by
    rw [List.cons_append, pySplit_cons, pySplit_cons]
    by_cases ha : a = sep
    · rw [if_pos ha, if_pos ha, pySplit_append_sep sep s t]
      rfl
    · rw [if_neg ha, if_neg ha, pySplit_append_sep sep s t]
      cases hps : pySplit sep s with
      | nil => exact absurd hps (pySplit_ne_nil sep s)
      | cons p ps => rfl

/-- `pyJoin` on a list with at least two pieces. -/
theorem pyJoin_cons_ne (sep : Char) (p : List Char) (rest : List (List Char))
    (h : rest ≠ []) : pyJoin sep (p :: rest) = p ++ sep :: pyJoin sep rest := by
  cases rest with
  | nil => exact absurd rfl h
  | cons q qs => rfl

/-- `pySplit` after `pyJoin` restores the pieces when none holds the
separator. -/
theorem pySplit_pyJoin (sep : Char) : ∀ (l : List (List Char)), l ≠ [] →
    (∀ c ∈ l, sep ∉ c) → pySplit sep (pyJoin sep l) = l
  | [], h, _ => absurd rfl h
  | [p], _, hc => by
    rw [show pyJoin sep [p] = p from rfl,
      pySplit_no_sep sep p (hc p (List.mem_cons_self p []))]
  | p :: q :: qs, _, hc => by
    rw [pyJoin_cons_ne sep p (q :: qs) (by simp), pySplit_append_sep,
      pySplit_no_sep sep p (hc p (List.mem_cons_self p (q :: qs))),
      pySplit_pyJoin sep (q :: qs) (by simp)
        (fun c hm => hc c (List.mem_cons_of_mem p hm))]
    rfl

/-- Characters of split pieces come from the split string. -/
theorem pySplit_chars (sep : Char) : ∀ (s c : List Char) (ch : Char),
    c ∈ pySplit sep s → ch ∈ c → ch ∈ s
  | [], c, ch, hc, hch => by
    simp [pySplit] at hc
    subst hc
    exact absurd hch (by simp)
  | a :: s, c, ch, hc, hch => by
    unfold pySplit at hc
    by_cases ha : a = sep
    · rw [if_pos ha] at hc
      rcases List.mem_cons.mp hc with rfl | h
      · exact absurd hch (by simp)
      · exact List.mem_cons_of_mem a (pySplit_chars sep s c ch h hch)
    · rw [if_neg ha] at hc
      cases hps : pySplit sep s with
      | nil => exact absurd hps (pySplit_ne_nil sep s)
      | cons p ps =>
        rw [hps] at hc
        rcases List.mem_cons.mp hc with rfl | h
        · rcases List.mem_cons.mp hch with rfl | h2
          · exact List.mem_cons_self ch s
          · exact List.mem_cons_of_mem a (pySplit_chars sep s p ch
              (by rw [hps]; exact List.mem_cons_self p ps) h2)
        · exact List.mem_cons_of_mem a (pySplit_chars sep s c ch
            (by rw [hps]; exact List.mem_cons_of_mem p h) hch)

/-- Characters of a join come from the pieces or are the separator. -/
theorem pyJoin_chars (sep : Char) : ∀ (l : List (List Char)) (ch : Char),
    ch ∈ pyJoin sep l → ch = sep ∨ ∃ c ∈ l, ch ∈ c
  | [], ch, h => absurd h (by simp [pyJoin])
  | [p], ch, h => Or.inr ⟨p, List.mem_cons_self p [], h⟩
  | p :: q :: qs, ch, h => by
    rw [pyJoin_cons_ne sep p (q :: qs) (by simp)] at h
    rcases List.mem_append.mp h with h1 | h2
    · exact Or.inr ⟨p, List.mem_cons_self p (q :: qs), h1⟩
    · rcases List.mem_cons.mp h2 with rfl | h3
      · exact Or.inl rfl
      · rcases pyJoin_chars sep (q :: qs) ch h3 with h4 | ⟨c, hc, hchc⟩
        · exact Or.inl h4
        · exact Or.inr ⟨c, List.mem_cons_of_mem p hc, hchc⟩

/-- The join of nonempty pieces ends as its last piece ends. -/
theorem pyJoin_getLast (sep : Char) : ∀ (l : List (List Char)), l ≠ [] →
    (∀ x ∈ l, x ≠ []) → (pyJoin sep l).getLast? = (l.getLastD []).getLast?
  | [], h, _ => absurd rfl h
  | [p], _, _ => rfl
  | p :: q :: qs, _, hx => by
    rw [pyJoin_cons_ne sep p (q :: qs) (by simp)]
    have hne : pyJoin sep (q :: qs) ≠ [] := by
      cases qs with
      | nil =>
        exact hx q (by simp)
      | cons r rs =>
        rw [pyJoin_cons_ne sep q (r :: rs) (by simp)]
        intro hq
        exact hx q (by simp) (List.append_eq_nil.mp hq).1
    obtain ⟨j, js, hj⟩ : ∃ j js, pyJoin sep (q :: qs) = j :: js := by
      cases hJ : pyJoin sep (q :: qs) with
      | nil => exact absurd hJ hne
      | cons j js => exact ⟨j, js, rfl⟩
    rw [List.getLast?_append_cons, hj, List.getLast?_cons_cons, ← hj,
      pyJoin_getLast sep (q :: qs) (by simp)
        (fun x hm => hx x (List.mem_cons_of_mem p hm))]
    rfl

/-! ## Idempotence of URL normalization: `normParts` lemmas -/

/-- The cons equation of `normParts`. -/
theorem normParts_cons (absFlag : Bool) (acc : List (List Char)) (c : List Char)
    (cs : List (List Char)) :
    normParts absFlag acc (c :: cs) =
      if c = [] ∨ c = ['.'] then normParts absFlag acc cs
      else if c ≠ ['.', '.'] then normParts absFlag (c :: acc) cs
      else
        match acc with
        | [] =>
          if absFlag then normParts absFlag [] cs
          else normParts absFlag [['.', '.']] cs
        | d :: ds =>
          if d = ['.', '.'] then normParts absFlag (c :: acc) cs
          else normParts absFlag ds cs := rfl

/-- A pure junk list (only `''` and `'.'`) is skipped entirely. -/
theorem normParts_junk (absFlag : Bool) :
    ∀ (js acc : List (List Char)), (∀ j ∈ js, j = [] ∨ j = ['.']) →
      normParts absFlag acc js = acc.reverse
  | [], _, _ => rfl
  | j :: js, acc, hj => by
    rw [normParts_cons, if_pos (hj j (List.mem_cons_self j js))]
    exact normParts_junk absFlag js acc
      (fun x hx => hj x (List.mem_cons_of_mem j hx))

/-- Junk appended after the components does not change the result. -/
theorem normParts_append_junk (absFlag : Bool) :
    ∀ (cs js acc : List (List Char)), (∀ j ∈ js, j = [] ∨ j = ['.']) →
      normParts absFlag acc (cs ++ js) = normParts absFlag acc cs
  | [], js, acc, hj => by
    rw [List.nil_append]
    exact normParts_junk absFlag js acc hj
  | a :: cs, js, acc, hj => by
    rw [List.cons_append, normParts_cons, normParts_cons]
    split
    · exact normParts_append_junk absFlag cs js acc hj
    · split
      · exact normParts_append_junk absFlag cs js _ hj
      · cases acc with
        | nil =>
          simp only []
          split
          · exact normParts_append_junk absFlag cs js _ hj
          · exact normParts_append_junk absFlag cs js _ hj
        | cons d ds =>
          simp only []
          split
          · exact normParts_append_junk absFlag cs js _ hj
          · exact normParts_append_junk absFlag cs js _ hj

/-- A `'.'` inserted between the components does not change the result. -/
theorem normParts_middle_dot (absFlag : Bool) :
    ∀ (cs ds acc : List (List Char)),
      normParts absFlag acc (cs ++ ['.'] :: ds) = normParts absFlag acc (cs ++ ds)
  | [], ds, acc => by
    rw [List.nil_append, List.nil_append, normParts_cons, if_pos (Or.inr rfl)]
  | a :: cs, ds, acc => by
    rw [List.cons_append, List.cons_append, normParts_cons, normParts_cons]
    split
    · exact normParts_middle_dot absFlag cs ds acc
    · split
      · exact normParts_middle_dot absFlag cs ds _
      · cases acc with
        | nil =>
          simp only []
          split
          · exact normParts_middle_dot absFlag cs ds _
          · exact normParts_middle_dot absFlag cs ds _
        | cons d dss =>
          simp only []
          split
          · exact normParts_middle_dot absFlag cs ds _
          · exact normParts_middle_dot absFlag cs ds _

/-- A clean non-`'..'` component at the end of the input survives as the
last output component. -/
theorem normParts_append_clean (absFlag : Bool) (L : List Char)
    (hL : GoodComp L ∧ L ≠ ['.', '.']) :
    ∀ (cs acc : List (List Char)),
      normParts absFlag acc (cs ++ [L]) = normParts absFlag acc cs ++ [L]
  | [], acc => by
    rw [List.nil_append, normParts_cons,
      if_neg (by
        rintro (h1 | h2)
        · exact hL.1.1 h1
        · exact hL.1.2.1 h2),
      if_pos hL.2]
    show (L :: acc).reverse = acc.reverse ++ [L]
    rw [List.reverse_cons]
  | a :: cs, acc => by
    rw [List.cons_append, normParts_cons, normParts_cons]
    split
    · exact normParts_append_clean absFlag L hL cs acc
    · split
      · exact normParts_append_clean absFlag L hL cs _
      · cases acc with
        | nil =>
          simp only []
          split
          · exact normParts_append_clean absFlag L hL cs _
          · exact normParts_append_clean absFlag L hL cs _
        | cons d ds =>
          simp only []
          split
          · exact normParts_append_clean absFlag L hL cs _
          · exact normParts_append_clean absFlag L hL cs _

/-- The loop invariant: from a well-shaped accumulator, slash-free input
produces a well-shaped component list. -/
theorem normParts_goodList (absFlag : Bool) :
    ∀ (cs acc : List (List Char)), (∀ c ∈ cs, '/' ∉ c) →
      GoodStack absFlag acc → GoodList absFlag (normParts absFlag acc cs)
  | [], acc, _, hacc => by
    obtain ⟨front, k, rfl, hfront, hk⟩ := hacc
    refine ⟨k, front.reverse, ?_, ?_, hk⟩
    · show (front ++ List.replicate k ['.', '.']).reverse = _
      rw [List.reverse_append, List.reverse_replicate]
    · intro c hc
      exact hfront c (List.mem_reverse.mp hc)
  | c :: cs, acc, hcs, hacc => by
    rw [normParts_cons]
    have hc' : '/' ∉ c := hcs c (List.mem_cons_self c cs)
    have hcs' : ∀ x ∈ cs, '/' ∉ x := fun x hx => hcs x (List.mem_cons_of_mem c hx)
    split
    · exact normParts_goodList absFlag cs acc hcs' hacc
    · rename_i hjunk
      split
      · rename_i hdd
        refine normParts_goodList absFlag cs _ hcs' ?_
        obtain ⟨front, k, rfl, hfront, hk⟩ := hacc
        refine ⟨c :: front, k, rfl, ?_, hk⟩
        intro x hx
        rcases List.mem_cons.mp hx with rfl | hx2
        · exact ⟨⟨fun h => hjunk (Or.inl h), fun h => hjunk (Or.inr h), hc'⟩, hdd⟩
        · exact hfront x hx2
      · rename_i hdd
        have hcdd : c = ['.', '.'] := not_not.mp hdd
        obtain ⟨front, k, heq, hfront, hk⟩ := hacc
        cases acc with
        | nil =>
          simp only []
          split
          · exact normParts_goodList absFlag cs [] hcs'
              ⟨[], 0, rfl, by simp, fun _ => rfl⟩
          · rename_i habs
            refine normParts_goodList absFlag cs _ hcs'
              ⟨[], 1, rfl, by simp, fun h => absurd h (by simpa using habs)⟩
        | cons d ds =>
          simp only []
          split
          · rename_i hd
            -- the stack top is `'..'`, so the clean front is empty
            have hfront_nil : front = [] := by
              cases front with
              | nil => rfl
              | cons f fs =>
                have : f = d := by
                  have := congrArg List.head? heq
                  simpa using this.symm
                exact absurd (this ▸ hd) (hfront f (List.mem_cons_self f fs)).2
            subst hfront_nil
            rw [List.nil_append] at heq
            have hk1 : 1 ≤ k := by
              by_contra hkk
              have hk0 : k = 0 := by omega
              rw [hk0] at heq
              exact absurd heq (by simp)
            refine normParts_goodList absFlag cs _ hcs'
              ⟨[], k + 1, ?_, by simp, fun h => ?_⟩
            · rw [heq, hcdd, List.nil_append]
              rfl
            · have := hk h
              omega
          · rename_i hd
            -- the stack top is clean, so it is popped
            cases front with
            | nil =>
              rw [List.nil_append] at heq
              have hk1 : 1 ≤ k := by
                by_contra hkk
                have hk0 : k = 0 := by omega
                rw [hk0] at heq
                exact absurd heq (by simp)
              have : d = ['.', '.'] := by
                have := congrArg List.head? heq
                cases k with
                | zero => omega
                | succ k' =>
                  rw [List.replicate_succ] at this
                  simpa using this
              exact absurd this hd
            | cons f fs =>
              have hfd : f = d := by
                have := congrArg List.head? heq
                simpa using this.symm
              have hds : ds = fs ++ List.replicate k ['.', '.'] := by
                have := congrArg List.tail heq
                simpa using this
              refine normParts_goodList absFlag cs ds hcs'
                ⟨fs, k, hds, fun x hx => hfront x (List.mem_cons_of_mem f hx), hk⟩

/-- Clean non-`'..'` components pass through untouched. -/
theorem normParts_clean (absFlag : Bool) :
    ∀ (cs : List (List Char)), (∀ c ∈ cs, GoodComp c ∧ c ≠ ['.', '.']) →
      ∀ acc, normParts absFlag acc cs = acc.reverse ++ cs
  | [], _, acc => by
    show acc.reverse = acc.reverse ++ []
    rw [List.append_nil]
  | c :: cs, h, acc => by
    rw [normParts_cons]
    obtain ⟨⟨hne, hdot, _⟩, hdd⟩ := h c (List.mem_cons_self c cs)
    rw [if_neg (by
        rintro (h1 | h2)
        · exact hne h1
        · exact hdot h2),
      if_pos hdd,
      normParts_clean absFlag cs (fun x hx => h x (List.mem_cons_of_mem c hx)) (c :: acc)]
    rw [List.reverse_cons, List.append_assoc]
    rfl

/-- A leading `'..'` run of a relative path passes through untouched. -/
theorem normParts_dd_run :
    ∀ (j m : Nat) (rest : List (List Char)),
      (∀ c ∈ rest, GoodComp c ∧ c ≠ ['.', '.']) →
      normParts false (List.replicate m ['.', '.'])
          (List.replicate j ['.', '.'] ++ rest)
        = List.replicate (m + j) ['.', '.'] ++ rest
  | 0, m, rest, h => by
    rw [List.replicate_zero, List.nil_append, normParts_clean false rest h,
      List.reverse_replicate, Nat.add_zero]
  | j + 1, m, rest, h => by
    rw [List.replicate_succ, List.cons_append, normParts_cons]
    rw [if_neg (by simp), if_neg (by simp)]
    cases m with
    | zero =>
      show normParts false [['.', '.']] (List.replicate j ['.', '.'] ++ rest) = _
      rw [show [['.', '.']] = List.replicate 1 ['.', '.'] from rfl,
        normParts_dd_run j 1 rest h]
      congr 1
      · congr 1
        omega
    | succ m' =>
      show normParts false (['.', '.'] :: List.replicate (m' + 1) ['.', '.'])
          (List.replicate j ['.', '.'] ++ rest) = _
      rw [show (['.', '.'] :: List.replicate (m' + 1) ['.', '.'])
          = List.replicate (m' + 2) ['.', '.'] from rfl,
        normParts_dd_run j (m' + 2) rest h]
      congr 1
      · congr 1
        omega

/-- A well-shaped component list is a fixed point of `normParts`. -/
theorem normParts_goodList_fix (absFlag : Bool) (l : List (List Char))
    (hg : GoodList absFlag l) : normParts absFlag [] l = l := by
  obtain ⟨k, rest, rfl, hrest, hk⟩ := hg
  cases habs : absFlag with
  | true =>
    rw [hk habs, List.replicate_zero, List.nil_append,
      normParts_clean true rest hrest []]
    simp
  | false =>
    subst habs
    rw [show ([] : List (List Char)) = List.replicate 0 ['.', '.'] from rfl,
      normParts_dd_run k 0 rest hrest, Nat.zero_add]

/-- Output components come from the input or the accumulator. -/
theorem normParts_mem (absFlag : Bool) :
    ∀ (cs acc : List (List Char)) (x : List Char)
      (hx : x ∈ normParts absFlag acc cs),
      x ∈ cs ∨ x ∈ acc
  | [], acc, x, hx => Or.inr (List.mem_reverse.mp hx)
  | c :: cs, acc, x, hx => by
    rw [normParts_cons] at hx
    split at hx
    · rcases normParts_mem absFlag cs acc x hx with h | h
      · exact Or.inl (List.mem_cons_of_mem c h)
      · exact Or.inr h
    · split at hx
      · rcases normParts_mem absFlag cs _ x hx with h | h
        · exact Or.inl (List.mem_cons_of_mem c h)
        · rcases List.mem_cons.mp h with rfl | h2
          · exact Or.inl (List.mem_cons_self x cs)
          · exact Or.inr h2
      · rename_i hjunk hdd
        have hcdd : c = ['.', '.'] := not_not.mp hdd
        cases acc with
        | nil =>
          simp only [] at hx
          split at hx
          · rcases normParts_mem absFlag cs [] x hx with h | h
            · exact Or.inl (List.mem_cons_of_mem c h)
            · exact absurd h (by simp)
          · rcases normParts_mem absFlag cs _ x hx with h | h
            · exact Or.inl (List.mem_cons_of_mem c h)
            · rcases List.mem_singleton.mp h with rfl
              exact Or.inl (by rw [hcdd]; exact List.mem_cons_self _ cs)
        | cons d ds =>
          simp only [] at hx
          split at hx
          · rcases normParts_mem absFlag cs _ x hx with h | h
            · exact Or.inl (List.mem_cons_of_mem c h)
            · rcases List.mem_cons.mp h with rfl | h2
              · exact Or.inl (List.mem_cons_self x cs)
              · exact Or.inr h2
          · rcases normParts_mem absFlag cs ds x hx with h | h
            · exact Or.inl (List.mem_cons_of_mem c h)
            · exact Or.inr (List.mem_cons_of_mem d h)

/-! ## Idempotence of URL normalization: path-level lemmas -/

/-- A one-character prefix tests the head. -/
theorem pyStartsWith_one (x a : Char) (r : List Char) :
    pyStartsWith [x] (a :: r) = decide (x = a) := by
  show (decide (x = a) && pyStartsWith [] r) = decide (x = a)
  rw [show pyStartsWith [] r = true from rfl, Bool.and_true]

/-- Heads differ: not a prefix. -/
theorem pyStartsWith_one_false (x a : Char) (r : List Char) (h : x ≠ a) :
    pyStartsWith [x] (a :: r) = false := by
  rw [pyStartsWith_one, decide_eq_false h]

/-- A string not starting with a slash has slash count zero. -/
theorem slashCount_nonslash (a : Char) (r : List Char) (h : a ≠ '/') :
    slashCount (a :: r) = 0 := by
  have h2 : pyStartsWith ['/', '/'] (a :: r) = false := by
    show (decide ('/' = a) && pyStartsWith ['/'] r) = false
    rw [decide_eq_false (fun hc => h hc.symm), Bool.false_and]
  have h1 : pyStartsWith ['/'] (a :: r) = false :=
    pyStartsWith_one_false '/' a r (fun hc => h hc.symm)
  unfold slashCount
  rw [h2, h1]
  simp

/-- A single leading slash gives slash count one. -/
theorem slashCount_one (t : List Char) (h : pyStartsWith ['/'] t = false) :
    slashCount ('/' :: t) = 1 := by
  unfold slashCount
  rw [show pyStartsWith ['/', '/'] ('/' :: t)
      = (decide ('/' = '/') && pyStartsWith ['/'] t) from rfl, h]
  simp [pyStartsWith]

/-- A double (but not triple) leading slash gives slash count two. -/
theorem slashCount_two (t : List Char) (h : pyStartsWith ['/'] t = false) :
    slashCount ('/' :: '/' :: t) = 2 := by
  unfold slashCount
  rw [show pyStartsWith ['/', '/', '/'] ('/' :: '/' :: t)
      = (decide ('/' = '/') && (decide ('/' = '/') && pyStartsWith ['/'] t)) from rfl, h]
  simp [pyStartsWith]

/-- Splitting after a leading separator prepends an empty piece. -/
theorem pySplit_sep_cons (sep : Char) (s : List Char) :
    pySplit sep (sep :: s) = [] :: pySplit sep s := by
  rw [pySplit_cons, if_pos rfl]

/-- Splitting under a run of leading separators. -/
theorem pySplit_replicate_append (sep : Char) :
    ∀ (k : Nat) (s : List Char),
      pySplit sep (List.replicate k sep ++ s)
        = List.replicate k ([] : List Char) ++ pySplit sep s
  | 0, s => by
    rw [List.replicate_zero, List.replicate_zero, List.nil_append, List.nil_append]
  | k + 1, s => by
    rw [List.replicate_succ, List.cons_append, pySplit_sep_cons,
      pySplit_replicate_append sep k s, List.replicate_succ, List.cons_append]

/-- Leading junk components are skipped by the component loop. -/
theorem normParts_junk_prefix (absFlag : Bool) :
    ∀ (js cs acc : List (List Char)), (∀ j ∈ js, j = [] ∨ j = ['.']) →
      normParts absFlag acc (js ++ cs) = normParts absFlag acc cs
  | [], _, _, _ => by rw [List.nil_append]
  | j :: js, cs, acc, hj => by
    rw [List.cons_append, normParts_cons, if_pos (hj j (List.mem_cons_self j js))]
    exact normParts_junk_prefix absFlag js cs acc
      (fun x hx => hj x (List.mem_cons_of_mem j hx))

/-- Components of a well-shaped list are nonempty and slash-free. -/
theorem goodList_comps (absFlag : Bool) (l : List (List Char))
    (hg : GoodList absFlag l) : ∀ c ∈ l, c ≠ [] ∧ '/' ∉ c := by
  obtain ⟨k, rest, rfl, hrest, -⟩ := hg
  intro c hc
  rcases List.mem_append.mp hc with h | h
  · rw [List.eq_of_mem_replicate h]
    exact ⟨by simp, by simp⟩
  · exact ⟨(hrest c h).1.1, (hrest c h).1.2.2⟩

/-- A nonempty join extends its first piece. -/
theorem pyJoin_cons_exists (sep : Char) (c : List Char) (cs : List (List Char)) :
    ∃ x, pyJoin sep (c :: cs) = c ++ x := by
  cases cs with
  | nil => exact ⟨[], (List.append_nil c).symm⟩
  | cons q qs => exact ⟨sep :: pyJoin sep (q :: qs), rfl⟩

/-- `renderPath` never returns the empty string. -/
theorem renderPath_ne_nil (s : Nat) (comps : List (List Char)) :
    renderPath s comps ≠ [] := by
  unfold renderPath
  simp only []
  split
  · simp
  · assumption

/-- `normpath` never returns the empty string. -/
theorem normpath_ne_nil (p : List Char) : normpath p ≠ [] := by
  unfold normpath
  split
  · simp
  · exact renderPath_ne_nil _ _

/-- `normpath` of a rendered well-shaped component list is itself. -/
theorem normpath_renderPath (s : Nat) (comps : List (List Char))
    (hs : s ≤ 2) (hg : GoodList (s != 0) comps) :
    normpath (renderPath s comps) = renderPath s comps := by
  have hcomps := goodList_comps (s != 0) comps hg
  cases comps with
  | nil => interval_cases s <;> decide
  | cons c cs =>
    obtain ⟨x, hx⟩ := pyJoin_cons_exists '/' c cs
    obtain ⟨a, t, hc⟩ : ∃ a t, c = a :: t := by
      cases c with
      | nil => exact absurd rfl (hcomps [] (List.mem_cons_self [] cs)).1
      | cons a t => exact ⟨a, t, rfl⟩
    have ha : a ≠ '/' := by
      intro h
      exact (hcomps c (List.mem_cons_self c cs)).2
        (by rw [hc, h]; exact List.mem_cons_self '/' t)
    have hjoin : pyJoin '/' (c :: cs) = a :: (t ++ x) := by
      rw [hx, hc]; rfl
    have hjsw : pyStartsWith ['/'] (pyJoin '/' (c :: cs)) = false := by
      rw [hjoin]; exact pyStartsWith_one_false '/' a _ (fun hc2 => ha hc2.symm)
    have hout : List.replicate s '/' ++ pyJoin '/' (c :: cs) ≠ [] := by
      rw [hjoin]
      intro hcon
      exact absurd (List.append_eq_nil.mp hcon).2 (by simp)
    have hrender : renderPath s (c :: cs)
        = List.replicate s '/' ++ pyJoin '/' (c :: cs) := by
      unfold renderPath
      simp only []
      rw [if_neg hout]
    have hslash : slashCount (renderPath s (c :: cs)) = s := by
      rw [hrender]
      interval_cases s
      · rw [List.replicate_zero, List.nil_append, hjoin]
        exact slashCount_nonslash a _ ha
      · rw [show List.replicate 1 '/' ++ pyJoin '/' (c :: cs)
            = '/' :: pyJoin '/' (c :: cs) from rfl]
        exact slashCount_one _ hjsw
      · rw [show List.replicate 2 '/' ++ pyJoin '/' (c :: cs)
            = '/' :: '/' :: pyJoin '/' (c :: cs) from rfl]
        exact slashCount_two _ hjsw
    have hsplit : pySplit '/' (renderPath s (c :: cs))
        = List.replicate s ([] : List Char) ++ (c :: cs) := by
      rw [hrender, pySplit_replicate_append,
        pySplit_pyJoin '/' (c :: cs) (by simp) (fun y hy => (hcomps y hy).2)]
    unfold normpath
    rw [if_neg (renderPath_ne_nil s (c :: cs)), hslash, hsplit,
      normParts_junk_prefix (s != 0) (List.replicate s ([] : List Char)) (c :: cs) []
        (fun j hj => Or.inl (List.eq_of_mem_replicate hj)),
      normParts_goodList_fix (s != 0) (c :: cs) hg]

/-- `posixpath.normpath` is idempotent. -/
theorem normpath_idem (p : List Char) : normpath (normpath p) = normpath p := by
  by_cases hp : p = []
  · subst hp; decide
  · have hs : slashCount p ≤ 2 := by
      unfold slashCount
      split
      · exact le_refl 2
      · split
        · omega
        · omega
    have hg : GoodList ((slashCount p) != 0)
        (normParts ((slashCount p) != 0) [] (pySplit '/' p)) :=
      normParts_goodList _ (pySplit '/' p) [] (fun c hc => pySplit_sep_notin '/' p c hc)
        ⟨[], 0, rfl, by simp, fun _ => rfl⟩
    have hnp : normpath p
        = renderPath (slashCount p) (normParts ((slashCount p) != 0) [] (pySplit '/' p)) := by
      unfold normpath
      rw [if_neg hp]
    rw [hnp, normpath_renderPath (slashCount p) _ hs hg]

/-- The final split piece is unchanged by a leading separator. -/
theorem pySplit_getLast_cons_sep (sep : Char) (s : List Char) :
    (pySplit sep (sep :: s)).getLast? = (pySplit sep s).getLast? := by
  rw [pySplit_sep_cons]
  obtain ⟨p, ps, hps⟩ : ∃ p ps, pySplit sep s = p :: ps := by
    cases hq : pySplit sep s with
    | nil => exact absurd hq (pySplit_ne_nil sep s)
    | cons p ps => exact ⟨p, ps, rfl⟩
  rw [hps, List.getLast?_cons_cons]

/-- The final split piece of `s ++ sep :: t` is that of `t`. -/
theorem pySplit_getLast_append (sep : Char) (s t : List Char) :
    (pySplit sep (s ++ sep :: t)).getLast? = (pySplit sep t).getLast? := by
  rw [pySplit_append_sep]
  obtain ⟨p, ps, hps⟩ : ∃ p ps, pySplit sep t = p :: ps := by
    cases hq : pySplit sep t with
    | nil => exact absurd hq (pySplit_ne_nil sep t)
    | cons p ps => exact ⟨p, ps, rfl⟩
  rw [hps, List.getLast?_append_cons]

/-- The final split piece tracks the final character when that character
is not the separator. -/
theorem pySplit_last_char (sep : Char) :
    ∀ (s : List Char) (a : Char), s.getLast? = some a → a ≠ sep →
      ∃ L, (pySplit sep s).getLast? = some L ∧ L ≠ [] ∧ L.getLast? = some a
  | [], a, h, _ => by simp at h
  | [c], a, h, ha => by
    have hc : c = a := by simpa using h
    refine ⟨[c], ?_, by simp, by simpa using hc⟩
    rw [pySplit_cons, if_neg (fun hcs => ha (hc.symm.trans hcs))]
    rfl
  | c :: d :: t, a, h, ha => by
    have ht : (d :: t).getLast? = some a := by
      rw [← List.getLast?_cons_cons]
      exact h
    obtain ⟨L, hL1, hL2, hL3⟩ := pySplit_last_char sep (d :: t) a ht ha
    obtain ⟨p, ps, hps⟩ : ∃ p ps, pySplit sep (d :: t) = p :: ps := by
      cases hq : pySplit sep (d :: t) with
      | nil => exact absurd hq (pySplit_ne_nil sep (d :: t))
      | cons p ps => exact ⟨p, ps, rfl⟩
    by_cases hcs : c = sep
    · refine ⟨L, ?_, hL2, hL3⟩
      rw [pySplit_cons, if_pos hcs, hps, List.getLast?_cons_cons, ← hps]
      exact hL1
    · have heq : pySplit sep (c :: d :: t) = (c :: p) :: ps := by
        rw [pySplit_cons, if_neg hcs, hps]
      rw [hps] at hL1
      cases ps with
      | nil =>
        have hLp : p = L := by simpa using hL1
        obtain ⟨y, ys, hy⟩ : ∃ y ys, p = y :: ys := by
          cases hp : p with
          | nil =>
            rw [hp] at hLp
            exact absurd hLp.symm hL2
          | cons y ys => exact ⟨y, ys, rfl⟩
        refine ⟨c :: p, ?_, by simp, ?_⟩
        · rw [heq]
          rfl
        · rw [hy, List.getLast?_cons_cons, ← hy, hLp]
          exact hL3
      | cons q qs =>
        refine ⟨L, ?_, hL2, hL3⟩
        rw [heq, List.getLast?_cons_cons]
        rw [List.getLast?_cons_cons] at hL1
        exact hL1

/-- When the final component of `p` is clean and not `'..'`, `normpath p`
ends exactly as that component ends. -/
theorem normpath_getLast (p L : List Char)
    (hlast : (pySplit '/' p).getLast? = some L)
    (hL : GoodComp L ∧ L ≠ ['.', '.']) :
    (normpath p).getLast? = L.getLast? := by
  have hp : p ≠ [] := by
    intro h
    subst h
    exact hL.1.1 (Option.some.inj (show some ([] : List Char) = some L from hlast)).symm
  obtain ⟨init, hinit⟩ := List.getLast?_eq_some_iff.mp hlast
  have hg : GoodList ((slashCount p) != 0)
      (normParts ((slashCount p) != 0) [] (pySplit '/' p)) :=
    normParts_goodList _ (pySplit '/' p) [] (fun c hc => pySplit_sep_notin '/' p c hc)
      ⟨[], 0, rfl, by simp, fun _ => rfl⟩
  have hcomps : normParts ((slashCount p) != 0) [] (pySplit '/' p)
      = normParts ((slashCount p) != 0) [] init ++ [L] := by
    rw [hinit]
    exact normParts_append_clean _ L hL init []
  have hcs := goodList_comps _ _ hg
  have hne : normParts ((slashCount p) != 0) [] (pySplit '/' p) ≠ [] := by
    rw [hcomps]
    simp
  have hjl : (pyJoin '/' (normParts ((slashCount p) != 0) [] (pySplit '/' p))).getLast?
      = L.getLast? := by
    rw [pyJoin_getLast '/' _ hne (fun x hx => (hcs x hx).1), hcomps, List.getLastD_concat]
  obtain ⟨ch, hch⟩ : ∃ ch, L.getLast? = some ch :=
    Option.isSome_iff_exists.mp (List.getLast?_isSome.mpr hL.1.1)
  obtain ⟨j, js, hj⟩ : ∃ j js,
      pyJoin '/' (normParts ((slashCount p) != 0) [] (pySplit '/' p)) = j :: js := by
    cases hq : pyJoin '/' (normParts ((slashCount p) != 0) [] (pySplit '/' p)) with
    | nil =>
      rw [hq, hch] at hjl
      exact absurd hjl (by simp)
    | cons j js => exact ⟨j, js, rfl⟩
  have hout : (List.replicate (slashCount p) '/'
      ++ pyJoin '/' (normParts ((slashCount p) != 0) [] (pySplit '/' p))) ≠ [] := by
    rw [hj]
    intro hcon
    exact absurd (List.append_eq_nil.mp hcon).2 (by simp)
  unfold normpath renderPath
  simp only []
  rw [if_neg hp, if_neg hout, hj, List.getLast?_append_cons, ← hj, hjl]

/-- Characters of `normpath p` come from `p` or are `'/'` or `'.'`. -/
theorem normpath_chars (p : List Char) (ch : Char) (h : ch ∈ normpath p) :
    ch ∈ p ∨ ch = '/' ∨ ch = '.' := by
  unfold normpath renderPath at h
  simp only [] at h
  by_cases hp : p = []
  · rw [if_pos hp] at h
    right; right
    simpa using h
  · rw [if_neg hp] at h
    split at h
    · right; right
      simpa using h
    · rcases List.mem_append.mp h with h1 | h2
      · right; left
        exact List.eq_of_mem_replicate h1
      · rcases pyJoin_chars '/' _ ch h2 with h3 | ⟨c, hc, hchc⟩
        · right; left
          exact h3
        · rcases normParts_mem _ _ _ c hc with hin | hin
          · left
            exact pySplit_chars '/' p c ch hin hchc
          · exact absurd hin (by simp)

/-- `backslashToSlash` is the identity on backslash-free strings. -/
theorem backslashToSlash_id : ∀ s : List Char, '\\' ∉ s → backslashToSlash s = s
  | [], _ => rfl
  | c :: cs, h => by
    have hc : c ≠ '\\' := fun hcc => h (hcc ▸ List.mem_cons_self c cs)
    have hrec := backslashToSlash_id cs (fun hm => h (List.mem_cons_of_mem c hm))
    unfold backslashToSlash at hrec ⊢
    rw [List.map_cons, if_neg hc, hrec]

/-- `normpath` introduces no backslash. -/
theorem normpath_no_backslash (p : List Char) (h : '\\' ∉ p) :
    '\\' ∉ normpath p := by
  intro hmem
  rcases normpath_chars p '\\' hmem with h1 | h2 | h3
  · exact h h1
  · exact absurd h2 (by decide)
  · exact absurd h3 (by decide)

/-- Dropping slashes from a slash-headed string. -/
theorem dropWhile_slash_cons (x : List Char) :
    ('/' :: x).dropWhile (· = '/') = x.dropWhile (· = '/') :=
  List.dropWhile_cons_of_pos (by simp)

/-- Dropping slashes does nothing without a leading slash. -/
theorem dropWhile_slash_id (t : List Char) (h : pyStartsWith ['/'] t = false) :
    t.dropWhile (· = '/') = t := by
  cases t with
  | nil => rfl
  | cons a r =>
    have ha : a ≠ '/' := by
      intro hcon
      rw [hcon, pyStartsWith_one] at h
      simp at h
    exact List.dropWhile_cons_of_neg (by simpa using ha)

/-- The slash-stripped string never starts with a slash. -/
theorem dropWhile_slash_head : ∀ s : List Char,
    pyStartsWith ['/'] (s.dropWhile (· = '/')) = false
  | [] => rfl
  | c :: cs => by
    by_cases hc : c = '/'
    · rw [List.dropWhile_cons_of_pos (by simpa using hc)]
      exact dropWhile_slash_head cs
    · rw [List.dropWhile_cons_of_neg (by simpa using hc)]
      exact pyStartsWith_one_false '/' c cs (fun h2 => hc h2.symm)

/-- The final split component survives slash stripping. -/
theorem dropWhile_slash_split_getLast : ∀ s : List Char,
    (pySplit '/' (s.dropWhile (· = '/'))).getLast? = (pySplit '/' s).getLast?
  | [] => rfl
  | c :: cs => by
    by_cases hc : c = '/'
    · subst hc
      rw [List.dropWhile_cons_of_pos (by simp), dropWhile_slash_split_getLast cs,
        pySplit_getLast_cons_sep '/' cs]
    · rw [List.dropWhile_cons_of_neg (by simpa using hc)]

/-- `collapseSlashes` is the identity without a leading slash. -/
theorem collapseSlashes_id (s : List Char) (h : s.head? ≠ some '/') :
    collapseSlashes s = s := by
  unfold collapseSlashes
  rw [if_neg h]

/-- `collapseSlashes` of a single-slash string. -/
theorem collapseSlashes_single (t : List Char) (h : pyStartsWith ['/'] t = false) :
    collapseSlashes ('/' :: t) = '/' :: t := by
  unfold collapseSlashes
  rw [if_pos (show ('/' :: t).head? = some '/' from rfl), dropWhile_slash_cons,
    dropWhile_slash_id t h]

/-- The final split component survives slash collapsing. -/
theorem collapseSlashes_split_getLast (s : List Char) :
    (pySplit '/' (collapseSlashes s)).getLast? = (pySplit '/' s).getLast? := by
  unfold collapseSlashes
  split
  · rw [pySplit_getLast_cons_sep, dropWhile_slash_split_getLast]
  · rfl

/-- Characters of `collapseSlashes` come from the string or are `'/'`. -/
theorem collapseSlashes_mem (s : List Char) (ch : Char) (h : ch ∈ collapseSlashes s) :
    ch ∈ s ∨ ch = '/' := by
  unfold collapseSlashes at h
  split at h
  · rcases List.mem_cons.mp h with rfl | h2
    · exact Or.inr rfl
    · exact Or.inl (List.dropWhile_subset _ h2)
  · exact Or.inl h

/-- Characters of `pathJoin` come from its arguments or are `'/'`. -/
theorem pathJoin_mem (a b : List Char) (ch : Char) (h : ch ∈ pathJoin a b) :
    ch ∈ a ∨ ch ∈ b ∨ ch = '/' := by
  unfold pathJoin at h
  split at h
  · exact Or.inr (Or.inl h)
  · split at h
    · rcases List.mem_append.mp h with h1 | h2
      · exact Or.inl h1
      · exact Or.inr (Or.inl h2)
    · rcases List.mem_append.mp h with h1 | h2
      · exact Or.inl h1
      · rcases List.mem_cons.mp h2 with rfl | h3
        · exact Or.inr (Or.inr rfl)
        · exact Or.inr (Or.inl h3)

/-- The final split component of a `pathJoin` is that of its second
argument when the first is nonempty. -/
theorem pathJoin_split_getLast (a b : List Char) (ha : a ≠ []) :
    (pySplit '/' (pathJoin a b)).getLast? = (pySplit '/' b).getLast? := by
  unfold pathJoin
  split
  · rfl
  · split
    · rename_i hcond
      rcases hcond with h1 | h2
      · exact absurd h1 ha
      · obtain ⟨C, hC⟩ := List.getLast?_eq_some_iff.mp h2
        rw [hC, List.append_assoc]
        exact pySplit_getLast_append '/' C b
    · exact pySplit_getLast_append '/' a b

/-- `splitFirstColon` at an explicit first colon. -/
theorem splitFirstColon_append : ∀ (a : List Char), ':' ∉ a → ∀ b : List Char,
    splitFirstColon (a ++ ':' :: b) = some (a, b)
  | [], _, b => by
    rw [List.nil_append]
    unfold splitFirstColon
    rw [if_pos rfl]
  | c :: a, h, b => by
    rw [List.cons_append]
    unfold splitFirstColon
    rw [if_neg (fun hc : c = ':' => h (hc ▸ List.mem_cons_self c a)),
      splitFirstColon_append a (fun hm => h (List.mem_cons_of_mem c hm)) b]
    rfl

/-- The protocol part of a colon split contains no colon. -/
theorem splitFirstColon_no_colon : ∀ (s a b : List Char),
    splitFirstColon s = some (a, b) → ':' ∉ a
  | [], a, b, h => by simp [splitFirstColon] at h
  | c :: cs, a, b, h => by
    unfold splitFirstColon at h
    split at h
    · simp only [Option.some.injEq, Prod.mk.injEq] at h
      rw [← h.1]
      simp
    · rename_i hc
      cases hsc : splitFirstColon cs with
      | none =>
        rw [hsc] at h
        simp at h
      | some pr =>
        rw [hsc] at h
        have h2 : (c :: pr.1, pr.2) = (a, b) := Option.some.inj h
        have ha : c :: pr.1 = a := congrArg Prod.fst h2
        rw [← ha]
        intro hm
        rcases List.mem_cons.mp hm with hh | hh
        · exact hc hh.symm
        · exact splitFirstColon_no_colon cs pr.1 pr.2 (by rw [hsc]) hh

/-- A trailing slash is dropped by `normpath` when the slash prefix is
unchanged by appending it. -/
theorem normpath_append_slash (q : List Char) (hq : q ≠ [])
    (hsl : slashCount (q ++ ['/']) = slashCount q) :
    normpath (q ++ ['/']) = normpath q := by
  unfold normpath
  rw [if_neg (by simp), if_neg hq, hsl,
    show q ++ ['/'] = q ++ '/' :: ([] : List Char) from rfl,
    pySplit_append_sep '/' q [],
    show pySplit '/' ([] : List Char) = [[]] from rfl,
    normParts_append_junk ((slashCount q) != 0) (pySplit '/' q) [[]] []
      (fun j hj => by
        simp only [List.mem_singleton] at hj
        exact Or.inl hj)]

/-- Shape of a relative `normpath` result: relative and not
slash-terminated. -/
theorem normpath_rel_shape (p : List Char) (hp : p ≠ []) (hrel : slashCount p = 0) :
    isAbs (normpath p) = false ∧ (normpath p).getLast? ≠ some '/'
      ∧ slashCount (normpath p) = 0 := by
  have hnp : normpath p = renderPath 0 (normParts false [] (pySplit '/' p)) := by
    unfold normpath
    rw [if_neg hp, hrel]
    rfl
  have hg : GoodList false (normParts false [] (pySplit '/' p)) :=
    normParts_goodList false (pySplit '/' p) []
      (fun c hc => pySplit_sep_notin '/' p c hc) ⟨[], 0, rfl, by simp, fun _ => rfl⟩
  have hcomps := goodList_comps false _ hg
  rw [hnp]
  cases hcase : normParts false [] (pySplit '/' p) with
  | nil => exact ⟨by decide, by decide, by decide⟩
  | cons c cs =>
    rw [hcase] at hcomps
    obtain ⟨x, hx⟩ := pyJoin_cons_exists '/' c cs
    obtain ⟨a, t, hc⟩ : ∃ a t, c = a :: t := by
      cases c with
      | nil => exact absurd rfl (hcomps [] (List.mem_cons_self [] cs)).1
      | cons a t => exact ⟨a, t, rfl⟩
    have ha : a ≠ '/' := fun h =>
      (hcomps c (List.mem_cons_self c cs)).2
        (by rw [hc, h]; exact List.mem_cons_self '/' t)
    have hjoin : pyJoin '/' (c :: cs) = a :: (t ++ x) := by
      rw [hx, hc]
      rfl
    have hrender : renderPath 0 (c :: cs) = a :: (t ++ x) := by
      unfold renderPath
      simp only []
      rw [show List.replicate 0 '/' ++ pyJoin '/' (c :: cs) = pyJoin '/' (c :: cs) from rfl,
        hjoin, if_neg (by simp)]
    have hM : (c :: cs).getLastD [] ∈ c :: cs := by
      rw [List.getLastD_cons]
      exact List.getLastD_mem_cons cs c
    have hMne : (c :: cs).getLastD [] ≠ [] := (hcomps _ hM).1
    obtain ⟨ch, hch⟩ : ∃ ch, ((c :: cs).getLastD []).getLast? = some ch :=
      Option.isSome_iff_exists.mp (List.getLast?_isSome.mpr hMne)
    have hchm : ch ∈ (c :: cs).getLastD [] := List.mem_of_getLast?_eq_some hch
    have hch_ne : ch ≠ '/' := fun h => (hcomps _ hM).2 (h ▸ hchm)
    have hjl : (pyJoin '/' (c :: cs)).getLast? = some ch := by
      rw [pyJoin_getLast '/' (c :: cs) (by simp) (fun y hy => (hcomps y hy).1), hch]
    refine ⟨?_, ?_, ?_⟩
    · rw [hrender]
      exact pyStartsWith_one_false '/' a _ (fun h2 => ha h2.symm)
    · rw [hrender, ← hjoin, hjl]
      intro hcon
      exact hch_ne (Option.some.inj hcon)
    · rw [hrender]
      exact slashCount_nonslash a _ ha

/-- Shape of a single-slash-absolute `normpath` result. -/
theorem normpath_single_slash (p : List Char) (hp : p ≠ []) (hsl : slashCount p = 1) :
    ∃ t, normpath p = '/' :: t ∧ pyStartsWith ['/'] t = false := by
  have hnp : normpath p = renderPath 1 (normParts true [] (pySplit '/' p)) := by
    unfold normpath
    rw [if_neg hp, hsl]
    rfl
  have hg : GoodList true (normParts true [] (pySplit '/' p)) :=
    normParts_goodList true (pySplit '/' p) []
      (fun c hc => pySplit_sep_notin '/' p c hc) ⟨[], 0, rfl, by simp, fun _ => rfl⟩
  have hcomps := goodList_comps true _ hg
  rw [hnp]
  cases hcase : normParts true [] (pySplit '/' p) with
  | nil => exact ⟨[], rfl, rfl⟩
  | cons c cs =>
    rw [hcase] at hcomps
    obtain ⟨x, hx⟩ := pyJoin_cons_exists '/' c cs
    obtain ⟨a, t, hc⟩ : ∃ a t, c = a :: t := by
      cases c with
      | nil => exact absurd rfl (hcomps [] (List.mem_cons_self [] cs)).1
      | cons a t => exact ⟨a, t, rfl⟩
    have ha : a ≠ '/' := fun h =>
      (hcomps c (List.mem_cons_self c cs)).2
        (by rw [hc, h]; exact List.mem_cons_self '/' t)
    refine ⟨pyJoin '/' (c :: cs), ?_, ?_⟩
    · unfold renderPath
      simp only []
      rw [if_neg (by simp)]
      rfl
    · rw [hx, hc]
      exact pyStartsWith_one_false '/' a _ (fun h2 => ha h2.symm)

/-- The `nltk`-relative branch of name normalization: on a nonempty
backslash-free relative name the result is relative and a fixed point. -/
theorem nrn_rel_fix (cwd r : List Char) (hr : r ≠ []) (hb : '\\' ∉ r)
    (hrel : isAbs r = false) :
    isAbs (normalizeResourceName cwd true none r) = false
    ∧ normalizeResourceName cwd true none (normalizeResourceName cwd true none r)
        = normalizeResourceName cwd true none r := by
  obtain ⟨b, rest, hbr⟩ : ∃ b rest, r = b :: rest := by
    cases r with
    | nil => exact absurd rfl hr
    | cons b rest => exact ⟨b, rest, rfl⟩
  have hbslash : b ≠ '/' := by
    intro h
    rw [hbr, h] at hrel
    have habs : isAbs ('/' :: rest) = true := by
      show pyStartsWith ['/'] ('/' :: rest) = true
      rw [pyStartsWith_one]
      simp
    rw [habs] at hrel
    exact Bool.noConfusion hrel
  have hcol : collapseSlashes r = r := by
    apply collapseSlashes_id
    rw [hbr]
    intro hcon
    exact hbslash (Option.some.inj hcon)
  obtain ⟨habs_q, hlast_q, hsl_q⟩ := normpath_rel_shape r hr
    (by rw [hbr]; exact slashCount_nonslash b rest hbslash)
  have hbs_q : backslashToSlash (normpath r) = normpath r :=
    backslashToSlash_id _ (normpath_no_backslash r hb)
  have hidem : normpath (normpath r) = normpath r := normpath_idem r
  have hq_ne : normpath r ≠ [] := normpath_ne_nil r
  obtain ⟨y, ys, hyy⟩ : ∃ y ys, normpath r = y :: ys := by
    cases hv : normpath r with
    | nil => exact absurd hv hq_ne
    | cons y ys => exact ⟨y, ys, rfl⟩
  have hy_ne : y ≠ '/' := by
    intro h
    rw [hyy, h] at habs_q
    have habs : isAbs ('/' :: ys) = true := by
      show pyStartsWith ['/'] ('/' :: ys) = true
      rw [pyStartsWith_one]
      simp
    rw [habs] at habs_q
    exact Bool.noConfusion habs_q
  have hcol_q : collapseSlashes (normpath r) = normpath r := by
    apply collapseSlashes_id
    rw [hyy]
    intro hcon
    exact hy_ne (Option.some.inj hcon)
  have hnrn : normalizeResourceName cwd true none r
      = if isDirName r && ((normpath r).getLast? != some '/')
        then normpath r ++ ['/'] else normpath r := by
    unfold normalizeResourceName
    simp only []
    rw [if_pos trivial, hcol, hbs_q]
  cases hdir : isDirName r with
  | false =>
    have ho : normalizeResourceName cwd true none r = normpath r := by
      rw [hnrn, hdir, Bool.false_and, if_neg (by simp)]
    obtain ⟨ch0, hch0⟩ : ∃ ch0, r.getLast? = some ch0 :=
      Option.isSome_iff_exists.mp (List.getLast?_isSome.mpr hr)
    have hdir2 : (decide (ch0 = '\\') || decide (ch0 = '/') || decide (ch0 = '.')) = false := by
      rw [show (decide (ch0 = '\\') || decide (ch0 = '/') || decide (ch0 = '.'))
          = isDirName r from by unfold isDirName; rw [hch0]]
      exact hdir
    have hch0_ns : ch0 ≠ '/' := by
      intro h
      rw [h] at hdir2
      simp at hdir2
    have hch0_nd : ch0 ≠ '.' := by
      intro h
      rw [h] at hdir2
      simp at hdir2
    obtain ⟨L, hL1, hL2, hL3⟩ := pySplit_last_char '/' r ch0 hch0 hch0_ns
    have hLgood : GoodComp L ∧ L ≠ ['.', '.'] := by
      refine ⟨⟨hL2, ?_, pySplit_sep_notin '/' r L (List.mem_of_getLast?_eq_some hL1)⟩, ?_⟩
      · intro h
        rw [h] at hL3
        exact hch0_nd (Option.some.inj (show some '.' = some ch0 from hL3)).symm
      · intro h
        rw [h] at hL3
        exact hch0_nd (Option.some.inj (show some '.' = some ch0 from hL3)).symm
    have hql : (normpath r).getLast? = some ch0 := by
      rw [normpath_getLast r L hL1 hLgood, hL3]
    have hdirq : isDirName (normpath r) = false := by
      unfold isDirName
      rw [hql]
      exact hdir2
    have hnrn2 : normalizeResourceName cwd true none (normpath r) = normpath r := by
      unfold normalizeResourceName
      simp only []
      rw [if_pos trivial, hcol_q, hidem, hbs_q, hdirq, Bool.false_and, if_neg (by simp)]
    refine ⟨?_, ?_⟩
    · rw [ho]
      exact habs_q
    · rw [ho]
      exact hnrn2
  | true =>
    have hcond : ((normpath r).getLast? != some '/') = true :=
      bne_iff_ne.mpr hlast_q
    have ho : normalizeResourceName cwd true none r = normpath r ++ ['/'] := by
      rw [hnrn, hdir, hcond, Bool.true_and, if_pos rfl]
    have ho_abs : isAbs (normpath r ++ ['/']) = false := by
      rw [hyy]
      show pyStartsWith ['/'] (y :: (ys ++ ['/'])) = false
      exact pyStartsWith_one_false '/' y _ (fun h2 => hy_ne h2.symm)
    have hdir_o : isDirName (normpath r ++ ['/']) = true := by
      unfold isDirName
      rw [List.getLast?_concat]
      simp
    have hcol_o : collapseSlashes (normpath r ++ ['/']) = normpath r ++ ['/'] := by
      apply collapseSlashes_id
      rw [hyy]
      intro hcon
      exact hy_ne (Option.some.inj (show some y = some '/' from hcon))
    have hsl_o : slashCount (normpath r ++ ['/']) = slashCount (normpath r) := by
      rw [hyy]
      show slashCount (y :: (ys ++ ['/'])) = slashCount (y :: ys)
      rw [slashCount_nonslash y _ hy_ne, slashCount_nonslash y _ hy_ne]
    have hnp_o : normpath (normpath r ++ ['/']) = normpath r := by
      rw [normpath_append_slash (normpath r) hq_ne hsl_o, hidem]
    have hbs_o : backslashToSlash (normpath r ++ ['/']) = normpath r ++ ['/'] := by
      apply backslashToSlash_id
      intro hm
      rcases List.mem_append.mp hm with h1 | h2
      · exact normpath_no_backslash r hb h1
      · simp at h2
    have hnrn2 : normalizeResourceName cwd true none (normpath r ++ ['/'])
        = normpath r ++ ['/'] := by
      unfold normalizeResourceName
      simp only []
      rw [if_pos trivial, hcol_o, hnp_o, hbs_q, hdir_o, hcond, Bool.true_and, if_pos rfl]
    refine ⟨?_, ?_⟩
    · rw [ho]
      exact ho_abs
    · rw [ho]
      exact hnrn2

/-- Prefix slash testing across an append of slash-free parts. -/
theorem pyStartsWith_slash_append (u v : List Char)
    (hu : pyStartsWith ['/'] u = false) (hv : pyStartsWith ['/'] v = false) :
    pyStartsWith ['/'] (u ++ v) = false := by
  cases u with
  | nil => exact hv
  | cons w ws =>
    rw [List.cons_append]
    rw [pyStartsWith_one] at hu ⊢
    exact hu

/-- Core of the absolute branch: once the joined absolute path is
identified, normalization yields a single-slash fixed point. -/
theorem nrn_abs_fix_core (cwd r J : List Char) (hr : r ≠ [])
    (hJ : abspath cwd (pathJoin ['.'] (collapseSlashes r)) = normpath J)
    (hJne : J ≠ []) (hJsl : slashCount J = 1)
    (hJlast : (pySplit '/' J).getLast? = (pySplit '/' r).getLast?)
    (hJb : '\\' ∉ J) :
    ∃ t, normalizeResourceName cwd false none r = '/' :: t
      ∧ pyStartsWith ['/'] t = false
      ∧ normalizeResourceName cwd false none ('/' :: t) = '/' :: t := by
  have hev0 : ∀ x : List Char, normalizeResourceName cwd false none x
      = (if isDirName x
            && ((backslashToSlash (abspath cwd (pathJoin ['.'] (collapseSlashes x)))).getLast?
                != some '/')
         then backslashToSlash (abspath cwd (pathJoin ['.'] (collapseSlashes x))) ++ ['/']
         else backslashToSlash (abspath cwd (pathJoin ['.'] (collapseSlashes x)))) :=
    fun _ => rfl
  obtain ⟨t0, hq, hq_ss⟩ := normpath_single_slash J hJne hJsl
  have hbs_q : backslashToSlash ('/' :: t0) = '/' :: t0 := by
    rw [← hq]
    exact backslashToSlash_id _ (normpath_no_backslash J hJb)
  have habs_t0 : isAbs ('/' :: t0) = true := by
    show pyStartsWith ['/'] ('/' :: t0) = true
    rw [pyStartsWith_one]
    simp
  have hnp_t0 : normpath ('/' :: t0) = '/' :: t0 := by
    rw [← hq, normpath_idem J]
  have hcol_t0 : collapseSlashes ('/' :: t0) = '/' :: t0 := collapseSlashes_single t0 hq_ss
  have hpj_t0 : pathJoin ['.'] ('/' :: t0) = '/' :: t0 := by
    unfold pathJoin
    rw [if_pos habs_t0]
  have habsp_t0 : abspath cwd (pathJoin ['.'] (collapseSlashes ('/' :: t0))) = '/' :: t0 := by
    rw [hcol_t0, hpj_t0]
    unfold abspath
    rw [if_pos habs_t0, hnp_t0]
  have hev_r : normalizeResourceName cwd false none r
      = if isDirName r && (('/' :: t0).getLast? != some '/')
        then ('/' :: t0) ++ ['/'] else '/' :: t0 := by
    rw [hev0 r, hJ, hq, hbs_q]
  cases hdir : isDirName r with
  | false =>
    have ho : normalizeResourceName cwd false none r = '/' :: t0 := by
      rw [hev_r, hdir, Bool.false_and, if_neg (by simp)]
    obtain ⟨ch0, hch0⟩ : ∃ ch0, r.getLast? = some ch0 :=
      Option.isSome_iff_exists.mp (List.getLast?_isSome.mpr hr)
    have hdir2 : (decide (ch0 = '\\') || decide (ch0 = '/') || decide (ch0 = '.')) = false := by
      rw [show (decide (ch0 = '\\') || decide (ch0 = '/') || decide (ch0 = '.'))
          = isDirName r from by unfold isDirName; rw [hch0]]
      exact hdir
    have hch0_ns : ch0 ≠ '/' := by
      intro h
      rw [h] at hdir2
      simp at hdir2
    have hch0_nd : ch0 ≠ '.' := by
      intro h
      rw [h] at hdir2
      simp at hdir2
    obtain ⟨L, hL1, hL2, hL3⟩ := pySplit_last_char '/' r ch0 hch0 hch0_ns
    have hLgood : GoodComp L ∧ L ≠ ['.', '.'] := by
      refine ⟨⟨hL2, ?_, pySplit_sep_notin '/' r L (List.mem_of_getLast?_eq_some hL1)⟩, ?_⟩
      · intro h
        rw [h] at hL3
        exact hch0_nd (Option.some.inj (show some '.' = some ch0 from hL3)).symm
      · intro h
        rw [h] at hL3
        exact hch0_nd (Option.some.inj (show some '.' = some ch0 from hL3)).symm
    have hql : ('/' :: t0).getLast? = some ch0 := by
      rw [← hq, normpath_getLast J L (by rw [hJlast]; exact hL1) hLgood, hL3]
    have hdirq : isDirName ('/' :: t0) = false := by
      unfold isDirName
      rw [hql]
      exact hdir2
    refine ⟨t0, ho, hq_ss, ?_⟩
    rw [hev0 ('/' :: t0), habsp_t0, hbs_q, hdirq, Bool.false_and, if_neg (by simp)]
  | true =>
    by_cases hql : ('/' :: t0).getLast? = some '/'
    · have ho : normalizeResourceName cwd false none r = '/' :: t0 := by
        rw [hev_r, hdir, hql, bne_self_eq_false, Bool.and_false, if_neg (by simp)]
      refine ⟨t0, ho, hq_ss, ?_⟩
      rw [hev0 ('/' :: t0), habsp_t0, hbs_q, hql, bne_self_eq_false, Bool.and_false,
        if_neg (by simp)]
    · have hcond : (('/' :: t0).getLast? != some '/') = true := bne_iff_ne.mpr hql
      have ho : normalizeResourceName cwd false none r = ('/' :: t0) ++ ['/'] := by
        rw [hev_r, hdir, hcond, Bool.true_and, if_pos rfl]
      obtain ⟨w, ws, hw⟩ : ∃ w ws, t0 = w :: ws := by
        cases ht : t0 with
        | nil =>
          exfalso
          apply hql
          rw [ht]
          rfl
        | cons w ws => exact ⟨w, ws, rfl⟩
      have hw_ne : w ≠ '/' := by
        intro h
        rw [hw, h, pyStartsWith_one] at hq_ss
        simp at hq_ss
      have ho_shape : ('/' :: t0) ++ ['/'] = '/' :: (t0 ++ ['/']) := rfl
      have ht_ss : pyStartsWith ['/'] (t0 ++ ['/']) = false := by
        rw [hw, List.cons_append]
        exact pyStartsWith_one_false '/' w _ (fun h2 => hw_ne h2.symm)
      have hcol_o : collapseSlashes ('/' :: (t0 ++ ['/'])) = '/' :: (t0 ++ ['/']) :=
        collapseSlashes_single _ ht_ss
      have habs_o : isAbs ('/' :: (t0 ++ ['/'])) = true := by
        show pyStartsWith ['/'] ('/' :: (t0 ++ ['/'])) = true
        rw [pyStartsWith_one]
        simp
      have hpj_o : pathJoin ['.'] ('/' :: (t0 ++ ['/'])) = '/' :: (t0 ++ ['/']) := by
        unfold pathJoin
        rw [if_pos habs_o]
      have hsl_o : slashCount (('/' :: t0) ++ ['/']) = slashCount ('/' :: t0) := by
        rw [ho_shape, slashCount_one _ ht_ss, slashCount_one t0 hq_ss]
      have hnp_o : normpath ('/' :: (t0 ++ ['/'])) = '/' :: t0 := by
        rw [← ho_shape, normpath_append_slash ('/' :: t0) (by simp) hsl_o, hnp_t0]
      have habsp_o : abspath cwd (pathJoin ['.'] (collapseSlashes ('/' :: (t0 ++ ['/']))))
          = '/' :: t0 := by
        rw [hcol_o, hpj_o]
        unfold abspath
        rw [if_pos habs_o, hnp_o]
      have hdir_o : isDirName ('/' :: (t0 ++ ['/'])) = true := by
        unfold isDirName
        rw [show ('/' :: (t0 ++ ['/']) : List Char) = ('/' :: t0) ++ ['/'] from rfl,
          List.getLast?_concat]
        simp
      refine ⟨t0 ++ ['/'], ho, ht_ss, ?_⟩
      rw [hev0 ('/' :: (t0 ++ ['/'])), habsp_o, hbs_q, hdir_o, hcond, Bool.true_and,
        if_pos rfl]
      exact ho_shape

/-- The `file`-absolute branch of name normalization: on a nonempty
backslash-free name the result is a single-slash absolute path and a
fixed point. -/
theorem nrn_abs_fix (cwd r : List Char) (hcwd : ValidCwd cwd) (hr : r ≠ [])
    (hb : '\\' ∉ r) :
    ∃ t, normalizeResourceName cwd false none r = '/' :: t
      ∧ pyStartsWith ['/'] t = false
      ∧ normalizeResourceName cwd false none ('/' :: t) = '/' :: t := by
  obtain ⟨hcwd_abs, hcwd_nss, hcwd_np, hcwd_nb, hcwd_nd⟩ := hcwd
  obtain ⟨b, rest, hbr⟩ : ∃ b rest, r = b :: rest := by
    cases r with
    | nil => exact absurd rfl hr
    | cons b rest => exact ⟨b, rest, rfl⟩
  obtain ⟨cw, hcw⟩ : ∃ cw, cwd = '/' :: cw := by
    cases hc : cwd with
    | nil =>
      rw [hc] at hcwd_abs
      exact absurd hcwd_abs (by decide)
    | cons c0 cw =>
      rw [hc] at hcwd_abs
      have h0 : '/' = c0 := of_decide_eq_true (by
        rw [show isAbs (c0 :: cw) = pyStartsWith ['/'] (c0 :: cw) from rfl,
          pyStartsWith_one] at hcwd_abs
        exact hcwd_abs)
      exact ⟨cw, by rw [← h0]⟩
  have hcw_ss : pyStartsWith ['/'] cw = false := by
    have h2 := hcwd_nss
    rw [hcw, show pyStartsWith ['/', '/'] ('/' :: cw)
        = (decide ('/' = '/') && pyStartsWith ['/'] cw) from rfl] at h2
    simpa using h2
  by_cases hbs : b = '/'
  · have hhead : r.head? = some '/' := by
      rw [hbr, hbs]
      rfl
    have hcol : collapseSlashes r = '/' :: r.dropWhile (· = '/') := by
      unfold collapseSlashes
      rw [if_pos hhead]
    have hD_ss : pyStartsWith ['/'] (r.dropWhile (· = '/')) = false := dropWhile_slash_head r
    have habs1 : isAbs (collapseSlashes r) = true := by
      rw [hcol]
      show pyStartsWith ['/'] ('/' :: r.dropWhile (· = '/')) = true
      rw [pyStartsWith_one]
      simp
    have hpj : pathJoin ['.'] (collapseSlashes r) = collapseSlashes r := by
      unfold pathJoin
      rw [if_pos habs1]
    have hJ : abspath cwd (pathJoin ['.'] (collapseSlashes r))
        = normpath (collapseSlashes r) := by
      unfold abspath
      rw [hpj, if_pos habs1]
    refine nrn_abs_fix_core cwd r (collapseSlashes r) hr hJ ?_ ?_ ?_ ?_
    · rw [hcol]
      simp
    · rw [hcol]
      exact slashCount_one _ hD_ss
    · exact collapseSlashes_split_getLast r
    · intro hm
      rcases collapseSlashes_mem r '\\' hm with h1 | h2
      · exact hb h1
      · exact absurd h2 (by decide)
  · have hcol : collapseSlashes r = r := by
      apply collapseSlashes_id
      rw [hbr]
      intro hcon
      exact hbs (Option.some.inj hcon)
    have hr_nabs : isAbs r = false := by
      rw [hbr]
      show pyStartsWith ['/'] (b :: rest) = false
      exact pyStartsWith_one_false '/' b rest (fun h2 => hbs h2.symm)
    have hpj : pathJoin ['.'] (collapseSlashes r) = '.' :: '/' :: r := by
      rw [hcol]
      unfold pathJoin
      rw [if_neg (by rw [hr_nabs]; simp), if_neg (by decide)]
      rfl
    have hj_nabs : isAbs ('.' :: '/' :: r) = false := by
      show pyStartsWith ['/'] ('.' :: '/' :: r) = false
      exact pyStartsWith_one_false '/' '.' _ (by decide)
    have hJdef : abspath cwd (pathJoin ['.'] (collapseSlashes r))
        = normpath (pathJoin cwd ('.' :: '/' :: r)) := by
      unfold abspath
      rw [hpj, if_neg (by rw [hj_nabs]; simp)]
    refine nrn_abs_fix_core cwd r (pathJoin cwd ('.' :: '/' :: r)) hr hJdef ?_ ?_ ?_ ?_
    · unfold pathJoin
      rw [if_neg (by rw [hj_nabs]; simp)]
      split
      · rw [hcw]
        simp
      · rw [hcw]
        simp
    · unfold pathJoin
      rw [if_neg (by rw [hj_nabs]; simp)]
      split
      · rw [hcw, List.cons_append]
        apply slashCount_one
        exact pyStartsWith_slash_append cw _ hcw_ss
          (pyStartsWith_one_false '/' '.' _ (by decide))
      · rename_i hcl
        rw [hcw, List.cons_append]
        apply slashCount_one
        cases hcwc : cw with
        | nil =>
          exfalso
          apply hcl
          right
          rw [hcw, hcwc]
          rfl
        | cons w ws =>
          rw [List.cons_append]
          apply pyStartsWith_one_false
          intro h2
          have hws : pyStartsWith ['/'] (w :: ws) = true := by
            rw [pyStartsWith_one, ← h2]
            simp
          rw [hcwc, hws] at hcw_ss
          exact Bool.noConfusion hcw_ss
    · rw [pathJoin_split_getLast cwd _ (by rw [hcw]; simp),
        show ('.' :: '/' :: r : List Char) = ['.'] ++ '/' :: r from rfl,
        pySplit_getLast_append]
    · intro hm
      rcases pathJoin_mem cwd ('.' :: '/' :: r) '\\' hm with h1 | h2 | h3
      · exact hcwd_nb h1
      · rcases List.mem_cons.mp h2 with h4 | h5
        · exact absurd h4 (by decide)
        · rcases List.mem_cons.mp h5 with h6 | h7
          · exact absurd h6 (by decide)
          · exact hb h7
      · exact absurd h3 (by decide)

/-- Splitting the reassembled `file` url recovers the single-slash name. -/
theorem urlSplit_file_roundtrip (t : List Char) (ht : pyStartsWith ['/'] t = false) :
    urlSplitOrDefault ("file://".toList ++ '/' :: t) = ("file".toList, '/' :: t) := by
  have h1 : urlSplitOrDefault ("file://".toList ++ '/' :: t)
      = ("file".toList, '/' :: t.dropWhile (· = '/')) := rfl
  rw [h1, dropWhile_slash_id t ht]

/-- Splitting the reassembled `nltk` url recovers the name. -/
theorem urlSplit_nltk_roundtrip (o : List Char) :
    urlSplitOrDefault ("nltk:".toList ++ o) = ("nltk".toList, o) := rfl

/-- The reassembled `file` url is a fixed point of url normalization when
its single-slash name is a fixed point of name normalization. -/
theorem normalizeResourceUrl_file_fix (cwd t : List Char)
    (hts : pyStartsWith ['/'] t = false)
    (hfix : normalizeResourceName cwd false none ('/' :: t) = '/' :: t) :
    normalizeResourceUrl cwd ("file://".toList ++ '/' :: t)
      = "file://".toList ++ '/' :: t := by
  have h1 : normalizeResourceUrl cwd ("file://".toList ++ '/' :: t)
      = "file://".toList
        ++ normalizeResourceName cwd false none ('/' :: t.dropWhile (· = '/')) := rfl
  rw [h1, dropWhile_slash_id t hts, hfix]

/-- The reassembled `nltk` url is a fixed point of url normalization when
its relative name is a fixed point of name normalization. -/
theorem normalizeResourceUrl_nltk_fix (cwd o : List Char)
    (habs : isAbs o = false)
    (hfix : normalizeResourceName cwd true none o = o) :
    normalizeResourceUrl cwd ("nltk:".toList ++ o) = "nltk:".toList ++ o := by
  have h1 : normalizeResourceUrl cwd ("nltk:".toList ++ o)
      = (if isAbs o then "file://".toList ++ normalizeResourceName cwd false none o
         else "nltk:".toList ++ normalizeResourceName cwd true none o) := rfl
  rw [h1, if_neg (by rw [habs]; simp), hfix]

/-- C4 counterexample: url normalization is not idempotent on all valid
urls.  `nltk:` (an empty resource name) normalizes to `nltk:.`, but a
second normalization sees the trailing dot as directory-like and appends
a slash, yielding `nltk:./`. -/
theorem c4_counterexample_normalize_not_idempotent :
    normalizeResourceUrl "/root".toList
        (normalizeResourceUrl "/root".toList "nltk:".toList)
      ≠ normalizeResourceUrl "/root".toList "nltk:".toList := by decide

/-- C4 (amended): url normalization is idempotent on every url whose
name part (as split off by `split_resource_url`, defaulting to the whole
string with the implicit `nltk` protocol when there is no colon) is
nonempty and backslash-free, for a well-formed working directory.  The
unrestricted claim is refuted by `nltk:` and by backslashed names such
as `nltk:/a\.\b`. -/
theorem c4_normalize_idempotent_on_clean_names (cwd u : List Char)
    (hcwd : ValidCwd cwd)
    (hb : '\\' ∉ (urlSplitOrDefault u).2) (hn : (urlSplitOrDefault u).2 ≠ []) :
    normalizeResourceUrl cwd (normalizeResourceUrl cwd u)
      = normalizeResourceUrl cwd u := by
  have hev : ∀ v : List Char, normalizeResourceUrl cwd v
      = (if (urlSplitOrDefault v).1 = "nltk".toList && isAbs (urlSplitOrDefault v).2 then
          "file://".toList ++ normalizeResourceName cwd false none (urlSplitOrDefault v).2
        else if (urlSplitOrDefault v).1 = "file".toList then
          "file://".toList ++ normalizeResourceName cwd false none (urlSplitOrDefault v).2
        else if (urlSplitOrDefault v).1 = "nltk".toList then
          "nltk:".toList ++ normalizeResourceName cwd true none (urlSplitOrDefault v).2
        else (urlSplitOrDefault v).1 ++ "://".toList ++ (urlSplitOrDefault v).2) :=
    fun _ => rfl
  rcases hpr : urlSplitOrDefault u with ⟨p, n⟩
  have hb' : '\\' ∉ n := by
    rw [hpr] at hb
    exact hb
  have hn' : n ≠ [] := by
    rw [hpr] at hn
    exact hn
  by_cases hp_nltk : p = "nltk".toList
  · by_cases hn_abs : isAbs n = true
    · obtain ⟨t, hval, hts, hfix⟩ := nrn_abs_fix cwd n hcwd hn' hb'
      have hout : normalizeResourceUrl cwd u = "file://".toList ++ '/' :: t := by
        rw [hev u, hpr]
        simp only []
        rw [if_pos (by rw [decide_eq_true hp_nltk, hn_abs]; rfl), hval]
      rw [hout]
      exact normalizeResourceUrl_file_fix cwd t hts hfix
    · have hnabs : isAbs n = false := by
        cases hv : isAbs n with
        | false => rfl
        | true => exact absurd hv hn_abs
      have hfile_ne : ¬ p = "file".toList := by
        rw [hp_nltk]
        decide
      obtain ⟨habs_o, hfix⟩ := nrn_rel_fix cwd n hn' hb' hnabs
      have hout : normalizeResourceUrl cwd u
          = "nltk:".toList ++ normalizeResourceName cwd true none n := by
        rw [hev u, hpr]
        simp only []
        rw [if_neg (by rw [hnabs, Bool.and_false]; simp), if_neg hfile_ne,
          if_pos hp_nltk]
      rw [hout]
      exact normalizeResourceUrl_nltk_fix cwd _ habs_o hfix
  · by_cases hp_file : p = "file".toList
    · obtain ⟨t, hval, hts, hfix⟩ := nrn_abs_fix cwd n hcwd hn' hb'
      have hout : normalizeResourceUrl cwd u = "file://".toList ++ '/' :: t := by
        rw [hev u, hpr]
        simp only []
        rw [if_neg (by rw [decide_eq_false hp_nltk, Bool.false_and]; simp),
          if_pos hp_file, hval]
      rw [hout]
      exact normalizeResourceUrl_file_fix cwd t hts hfix
    · have hsru : splitResourceUrl u = some (p, n) := by
        cases hs : splitResourceUrl u with
        | none =>
          have hd : urlSplitOrDefault u = ("nltk".toList, u) := by
            unfold urlSplitOrDefault
            rw [hs]
          rw [hpr] at hd
          exact absurd (congrArg Prod.fst hd) hp_nltk
        | some pn =>
          have hd : urlSplitOrDefault u = pn := by
            unfold urlSplitOrDefault
            rw [hs]
          rw [hpr] at hd
          rw [hd]
      have hpcol : ':' ∉ p := by
        unfold splitResourceUrl at hsru
        cases hsf : splitFirstColon u with
        | none =>
          rw [hsf] at hsru
          exact absurd hsru (by simp)
        | some pr =>
          obtain ⟨pp, path0⟩ := pr
          rw [hsf] at hsru
          simp only [] at hsru
          have hpp : pp = p := by
            split at hsru
            · exact congrArg Prod.fst (Option.some.inj hsru)
            · split at hsru
              · split at hsru
                · exact congrArg Prod.fst (Option.some.inj hsru)
                · exact congrArg Prod.fst (Option.some.inj hsru)
              · exact congrArg Prod.fst (Option.some.inj hsru)
          rw [← hpp]
          exact splitFirstColon_no_colon u pp path0 hsf
      have hout : normalizeResourceUrl cwd u = p ++ "://".toList ++ n := by
        rw [hev u, hpr]
        simp only []
        rw [if_neg (by rw [decide_eq_false hp_nltk, Bool.false_and]; simp),
          if_neg hp_file, if_neg hp_nltk]
      have hre : p ++ "://".toList ++ n = p ++ ':' :: ('/' :: '/' :: n) := by
        rw [List.append_assoc]
        rfl
      have hsp2 : urlSplitOrDefault (p ++ "://".toList ++ n) = (p, n) := by
        have hsf2 : splitFirstColon (p ++ "://".toList ++ n)
            = some (p, '/' :: '/' :: n) := by
          rw [hre]
          exact splitFirstColon_append p hpcol ('/' :: '/' :: n)
        unfold urlSplitOrDefault splitResourceUrl
        rw [hsf2]
        simp only []
        rw [if_neg hp_nltk, if_neg hp_file]
        rfl
      rw [hout, hev (p ++ "://".toList ++ n), hsp2]
      simp only []
      rw [if_neg (by rw [decide_eq_false hp_nltk, Bool.false_and]; simp),
        if_neg hp_file, if_neg hp_nltk]

/-- C4 witness: the amended idempotence at a concrete relative `nltk`
url with a well-formed working directory. -/
theorem c4_normalize_idempotent_on_clean_names_witness :
    ValidCwd "/root".toList
    ∧ normalizeResourceUrl "/root".toList
        (normalizeResourceUrl "/root".toList "nltk:corpora/x.txt".toList)
      = normalizeResourceUrl "/root".toList "nltk:corpora/x.txt".toList :=
  ⟨⟨by decide, by decide, by decide, by decide, by decide⟩,
   c4_normalize_idempotent_on_clean_names "/root".toList "nltk:corpora/x.txt".toList
     ⟨by decide, by decide, by decide, by decide, by decide⟩ (by decide) (by decide)⟩

/-- C1 counterexample: on `fsA` (archive `/data/a/b.zip` holding the
single member `b/c`, search root `/data`) resolving `a/b/c` succeeds via
the archive fallback and opens to the member's bytes, but the claim's
explicit spelling `a/b.zip/c` fails with the not-found error: the
rewrite the fallback actually tries duplicates the wrapped component,
giving `a/b.zip/b/c`, and the archive has no member `c`. -/
theorem c1_counterexample_explicit_spelling :
    find fsA "a/b/c".toList ["/data".toList]
        = .ok (.zipEntry "/data/a/b.zip".toList "b/c".toList)
    ∧ openPtr fsA none (.zipEntry "/data/a/b.zip".toList "b/c".toList)
        = .ok (.binary [7, 8])
    ∧ find fsA "a/b.zip/c".toList ["/data".toList]
        = .error (.lookupErr "a/b.zip/c".toList ["/data".toList])
    ∧ find fsA "a/b.zip/b/c".toList ["/data".toList]
        = .ok (.zipEntry "/data/a/b.zip".toList "b/c".toList) :=
  ⟨by decide, by decide, by decide, by decide⟩

/-- C1 (amended): the archive-fallback property with the corrected
explicit spelling.  (1) For a three-component resource name `A/B/C` the
archive rewrite at the middle component is `A/B.zip/B/C` — the wrapped
component is repeated after the `.zip` name, not dropped.  (2) When the
name has no archive component, every literal root attempt misses, the
rewrites before position `k` fail as not-found and position `k`
resolves, then the original name resolves to exactly the rewritten
name's result — the same pointer, hence identical bytes on `open()`.
(3) An archive-entry pointer whose entry is an exact member with a
non-`.gz` name opens (without an encoding) to that member's bytes. -/
theorem c1_archive_fallback_corrected :
    (∀ (fs : Fs) (rn0 A B C : List Char),
      pySplit '/' (findName fs rn0) = [A, B, C] →
      fallbackName fs rn0 1 = pyJoin '/' [A, B ++ ".zip".toList, B, C])
    ∧ (∀ (fuel : Nat) (fs : Fs) (rn0 : List Char) (paths : List (List Char))
        (k : Nat) (ptr : PathPtr),
      findZipSplit fs rn0 = none →
      (∀ j (hj : j < paths.length),
        rootAttempt fs rn0 (paths.get ⟨j, hj⟩) = .ok none) →
      k < (pySplit '/' (findName fs rn0)).length →
      findFuel fuel fs (fallbackName fs rn0 k) paths = .ok ptr →
      (∀ m, m < k → ∃ rm sp,
        findFuel fuel fs (fallbackName fs rn0 m) paths = .error (.lookupErr rm sp)) →
      findFuel (fuel + 1) fs rn0 paths
        = findFuel fuel fs (fallbackName fs rn0 k) paths)
    ∧ (∀ (fs : Fs) (z ze : List Char) (raw : List Nat)
        (es : List (List Char × List Nat)) (e : List Char × List Nat),
      fs.lookup z = some (.zipArchive raw es) →
      es.find? (fun x => x.1 == ze) = some e →
      pyEndsWith ".gz".toList ze = false →
      openPtr fs none (.zipEntry z ze) = .ok (.binary e.2)) := by
  refine ⟨?_, ?_, ?_⟩
  · intro fs rn0 A B C h
    unfold fallbackName modifiedName
    rw [h]
    rfl
  · intro fuel fs rn0 paths k ptr hz hmiss hk hhit hbefore
    rw [hhit, findFuel_succ,
      (findInRoots_all_miss_iff fs (findName fs rn0) (findZipSplit fs rn0) paths).mpr
        hmiss, hz]
    refine firstFallback_hit _ _ k (by simpa using hk) ptr ?_ ?_
    · simp only [List.get_eq_getElem, List.getElem_map, List.getElem_range]
      exact hhit
    · intro m hm hmk
      obtain ⟨rm, sp, hrm⟩ := hbefore m hmk
      refine ⟨rm, sp, ?_⟩
      simp only [List.get_eq_getElem, List.getElem_map, List.getElem_range]
      exact hrm
  · intro fs z ze raw es e h1 h2 h3
    simp only [openPtr, ZipFilePathPointer.openStream, h1, h2, h3]
    simp

/-- C1 witness: the three parts at the `fsA` fixture — the corrected
rewrite spelling of `a/b/c`, equality of the two resolutions, and the
member's bytes on open. -/
theorem c1_archive_fallback_corrected_witness :
    fallbackName fsA "a/b/c".toList 1 = pyJoin '/'
        ["a".toList, "b".toList ++ ".zip".toList, "b".toList, "c".toList]
    ∧ findFuel 4 fsA "a/b/c".toList ["/data".toList]
        = findFuel 3 fsA (fallbackName fsA "a/b/c".toList 1) ["/data".toList]
    ∧ openPtr fsA none (.zipEntry "/data/a/b.zip".toList "b/c".toList)
        = .ok (.binary [7, 8]) :=
  ⟨c1_archive_fallback_corrected.1 fsA "a/b/c".toList "a".toList "b".toList "c".toList
      (by decide),
   c1_archive_fallback_corrected.2.1 3 fsA "a/b/c".toList ["/data".toList] 1
      (.zipEntry "/data/a/b.zip".toList "b/c".toList) (by decide) (by decide)
      (by decide) (by decide)
      (fun m hm => by
        have hm0 : m = 0 := by omega
        subst hm0
        exact ⟨"a.zip/a/b/c".toList, ["/data".toList], by decide⟩),
   c1_archive_fallback_corrected.2.2 fsA "/data/a/b.zip".toList "b/c".toList [80, 75]
      [("b/c".toList, [7, 8])] ("b/c".toList, [7, 8]) (by decide) (by decide)
      (by decide)⟩

end NltkData
